import Mathlib

/-!
Verification of the SQL schema diff engine (`sql_schema_differ.rs` of the
migration engine). The data model (snapshots, tables, columns, indexes,
foreign keys, enums) and the flavour capability interface are shallowly
embedded; the diffing and step-assembly functions are translated from the
source. Submodules of the differ that are not part of the provided source
(`column.rs`, `table.rs`, `differ_database.rs` internals, the concrete
flavours) are modelled from the specification and marked as such in their
doc comments.
-/

namespace SqlDiff

/-- `Pair<T>` from the source: an immutable (previous, next) tuple. -/
structure Pair (α : Type) where
  previous : α
  next : α
deriving DecidableEq, Repr

/-- Column type family, from the `sql-schema-describer` crate (the describer
is an external collaborator; the families named in the source and the spec
are reproduced: integer, string, uuid, enum, unsupported, and a few more). -/
inductive ColumnTypeFamily : Type where
  | int
  | bigInt
  | float
  | decimal
  | boolean
  | string
  | dateTime
  | binary
  | json
  | uuid
  | enum (name : String)
  | unsupported (description : String)
deriving DecidableEq, Repr

/-- Modelled from the spec: nullability/arity of a column (`Required|Nullable|List`). -/
inductive ColumnArity : Type where
  | required
  | nullable
  | list
deriving DecidableEq, Repr

/-- Modelled from the spec: a column of a snapshot table — name, type family,
native-type detail, arity, default-value expression. -/
structure Column : Type where
  name : String
  family : ColumnTypeFamily
  arity : ColumnArity
  nativeType : Option String
  defaultValue : Option String
deriving DecidableEq, Repr

/-- Modelled from the spec: an index — optional name, ordered list of
constrained column names, uniqueness flag. -/
structure Index : Type where
  name : Option String
  columns : List String
  unique : Bool
deriving DecidableEq, Repr

/-- Modelled from the spec: a foreign key — optional constraint name, ordered
constrained column names, referenced table and referenced column names. -/
structure ForeignKey : Type where
  constraintName : Option String
  constrainedColumns : List String
  referencedColumns : List String
  referencedTable : String
deriving DecidableEq, Repr

/-- Modelled from the spec: a table — name, ordered columns, indexes, foreign
keys, optional primary key given as an ordered list of column positions. -/
structure Table : Type where
  name : String
  columns : List Column
  indexes : List Index
  foreignKeys : List ForeignKey
  primaryKey : Option (List Nat)
deriving DecidableEq, Repr

/-- Modelled from the spec: a native enum type — name and ordered variant labels. -/
structure Enum : Type where
  name : String
  variants : List String
deriving DecidableEq, Repr

/-- Modelled from the spec: a schema snapshot — ordered tables and enums,
addressable by positional index. -/
structure SqlSchema : Type where
  tables : List Table
  enums : List Enum
deriving DecidableEq, Repr

/-- The type-cast classification returned by the flavour (`SafeCast`,
`RiskyCast`, `NotCastable`); the differ-internal and migration-step versions
of this enum are identical in the source (the assembler maps one onto the
other constructor by constructor), so a single type stands for both. -/
inductive ColumnTypeChange : Type where
  | safeCast
  | riskyCast
  | notCastable
deriving DecidableEq, Repr

/-- Modelled from the spec: the atomic change set computed by the column
differ (`column.rs` is absent from the source): renaming metadata,
arity change, default-value change, type change. -/
structure ColumnChanges : Type where
  renamed : Bool
  arityChanged : Bool
  defaultChanged : Bool
  typeChanged : Bool
deriving DecidableEq, Repr

/-- Whether the change set records any difference at all. -/
def differsInSomething (c : ColumnChanges) : Bool :=
  c.renamed || c.arityChanged || c.defaultChanged || c.typeChanged

/-- A change inside an `AlterTable` step, as assembled by the source
(`TableChange` of the `sql_migration` module, reconstructed from its uses in
the differ source). -/
inductive TableChange : Type where
  | addColumn (columnIndex : Nat)
  | dropColumn (index : Nat)
  | alterColumn (columnIndex : Pair Nat) (changes : ColumnChanges)
      (typeChange : Option ColumnTypeChange)
  | dropAndRecreateColumn (columnIndex : Pair Nat) (changes : ColumnChanges)
  | dropPrimaryKey
  | addPrimaryKey (columns : List Nat)
deriving DecidableEq, Repr

/-- The flavour capability interface (§4.5 of the spec): a pure record of
engine facts consulted by the differ. The concrete per-engine
implementations are external; the differ depends only on this interface. -/
structure SqlFlavour : Type where
  tableNamesMatch : String → String → Bool
  tableShouldBeIgnored : String → Bool
  columnNamesMatch : String → String → Bool
  canAlterIndex : Bool
  shouldSkipFkIndexes : Bool
  shouldDropIndexesFromDroppedTables : Bool
  shouldCreateIndexesFromCreatedTables : Bool
  shouldSkipIndexForNewTable : Index → Bool
  shouldPushForeignKeysFromCreatedTables : Bool
  shouldRecreateThePrimaryKeyOnColumnRecreate : Bool
  indexesShouldBeRecreatedAfterColumnDrop : Bool
  columnTypeChange : Column → Column → ColumnTypeChange
  indexShouldBeRenamed : Index → Index → Bool
  shouldRedefineTable : List TableChange → Bool
  hasNativeEnums : Bool

/-- `DropForeignKey` step payload (table and constraint are also carried by
name, as in the source). -/
structure DropForeignKeyStep : Type where
  tableIndex : Nat
  foreignKeyIndex : Nat
  table : String
  constraintName : String
deriving DecidableEq, Repr

/-- `DropIndex` step payload. -/
structure DropIndexStep : Type where
  tableIndex : Nat
  indexIndex : Nat
deriving DecidableEq, Repr

/-- `CreateIndex` step payload. -/
structure CreateIndexStep : Type where
  tableIndex : Nat
  indexIndex : Nat
  causedByCreateTable : Bool
deriving DecidableEq, Repr

/-- `AlterTable` step payload: the table position in both snapshots and the
ordered change list. -/
structure AlterTableStep : Type where
  tableIndex : Pair Nat
  changes : List TableChange
deriving DecidableEq, Repr

/-- `AddForeignKey` step payload. -/
structure AddForeignKeyStep : Type where
  tableIndex : Nat
  foreignKeyIndex : Nat
deriving DecidableEq, Repr

/-- `RedefineTable` payload: dropped-primary-key flag, added/dropped column
indices, and the column pairs with their change sets and classified type
changes. -/
structure RedefineTableStep : Type where
  tableIndex : Pair Nat
  droppedPrimaryKey : Bool
  addedColumns : List Nat
  droppedColumns : List Nat
  columnPairs : List (Pair Nat × ColumnChanges × Option ColumnTypeChange)
deriving DecidableEq, Repr

/-- `AlterEnum` step payload: enum position in both snapshots, created and
dropped variants, and the pre-computed previous usages of the enum as a
column default, each with the optional corresponding next-snapshot column. -/
structure AlterEnumStep : Type where
  index : Pair Nat
  createdVariants : List String
  droppedVariants : List String
  previousUsagesAsDefault : List ((Nat × Nat) × Option (Nat × Nat))
deriving DecidableEq, Repr

/-- `SqlMigrationStep`: the tagged migration step type of the source. -/
inductive SqlMigrationStep : Type where
  | createEnum (enumIndex : Nat)
  | alterEnum (step : AlterEnumStep)
  | dropForeignKey (step : DropForeignKeyStep)
  | dropIndex (step : DropIndexStep)
  | alterTable (step : AlterTableStep)
  | dropTable (tableIndex : Nat)
  | dropEnum (enumIndex : Nat)
  | createTable (tableIndex : Nat)
  | redefineTables (tables : List RedefineTableStep)
  | createIndex (step : CreateIndexStep)
  | addForeignKey (step : AddForeignKeyStep)
  | alterIndex (table : Pair Nat) (index : Pair Nat)
  | redefineIndex (table : Pair Nat) (index : Pair Nat)
deriving DecidableEq, Repr

/-- Walkers pair every entity with its positional index in its snapshot;
`withIdxFrom n l` indexes `l` starting at `n`. -/
def withIdxFrom : Nat → List α → List (Nat × α)
  | _, [] => []
  | n, a :: as => (n, a) :: withIdxFrom (n + 1) as

/-- Index a list by position from zero (the walker view of a snapshot list). -/
def withIdx (l : List α) : List (Nat × α) :=
  withIdxFrom 0 l

/-- `table_is_ignored` from the source: the reserved migrations bookkeeping
table plus any flavour-specific ignored table. -/
def tableIsIgnored (flavour : SqlFlavour) (tableName : String) : Bool :=
  tableName == "_prisma_migrations" || flavour.tableShouldBeIgnored tableName

/-- The tables of one snapshot that take part in diffing, with their
positional indices (ignored tables are excluded regardless of match
outcome). -/
def filteredTables (flavour : SqlFlavour) (schema : SqlSchema) : List (Nat × Table) :=
  (withIdx schema.tables).filter (fun t => !(tableIsIgnored flavour t.2.name))

/-- `previous_tables` of `DifferDatabase`. -/
def previousTables (schemas : Pair SqlSchema) (flavour : SqlFlavour) : List (Nat × Table) :=
  filteredTables flavour schemas.previous

/-- `next_tables` of `DifferDatabase`. -/
def nextTables (schemas : Pair SqlSchema) (flavour : SqlFlavour) : List (Nat × Table) :=
  filteredTables flavour schemas.next

/-- `created_tables` from the source: next tables with no previous table
matching under the flavour's table-name-equivalence predicate. -/
def createdTables (schemas : Pair SqlSchema) (flavour : SqlFlavour) : List (Nat × Table) :=
  (nextTables schemas flavour).filter (fun nt =>
    !((previousTables schemas flavour).any (fun pt =>
      flavour.tableNamesMatch pt.2.name nt.2.name)))

/-- Modelled from the spec (§4.1, `DifferDatabase` internals absent):
previous tables with no matching next table are dropped. -/
def droppedTables (schemas : Pair SqlSchema) (flavour : SqlFlavour) : List (Nat × Table) :=
  (previousTables schemas flavour).filter (fun pt =>
    !((nextTables schemas flavour).any (fun nt =>
      flavour.tableNamesMatch pt.2.name nt.2.name)))

/-- Modelled from the spec (§4.1): matched table pairs, in previous-snapshot
order, each previous table paired with the first next table whose name
matches under the flavour predicate. -/
def tablePairs (schemas : Pair SqlSchema) (flavour : SqlFlavour) :
    List (Pair (Nat × Table)) :=
  (previousTables schemas flavour).filterMap (fun pt =>
    ((nextTables schemas flavour).find? (fun nt =>
      flavour.tableNamesMatch pt.2.name nt.2.name)).map (fun nt => ⟨pt, nt⟩))

/-- Modelled from the spec (§4.2, table differ internals absent): matched
column pairs of a table pair, by flavour-specific column-name equivalence,
in previous-table order. -/
def columnPairs (flavour : SqlFlavour) (tp : Pair (Nat × Table)) :
    List (Pair (Nat × Column)) :=
  (withIdx tp.previous.2.columns).filterMap (fun pc =>
    ((withIdx tp.next.2.columns).find? (fun nc =>
      flavour.columnNamesMatch pc.2.name nc.2.name)).map (fun nc => ⟨pc, nc⟩))

/-- Modelled from the spec (§4.2): next-only columns of a table pair. -/
def addedColumns (flavour : SqlFlavour) (tp : Pair (Nat × Table)) : List (Nat × Column) :=
  (withIdx tp.next.2.columns).filter (fun nc =>
    !((withIdx tp.previous.2.columns).any (fun pc =>
      flavour.columnNamesMatch pc.2.name nc.2.name)))

/-- Modelled from the spec (§4.2): previous-only columns of a table pair. -/
def droppedColumns (flavour : SqlFlavour) (tp : Pair (Nat × Table)) : List (Nat × Column) :=
  (withIdx tp.previous.2.columns).filter (fun pc =>
    !((withIdx tp.next.2.columns).any (fun nc =>
      flavour.columnNamesMatch pc.2.name nc.2.name)))

/-- Modelled from the spec (§4.2): two indexes correspond iff they constrain
the same columns in the same order and agree on uniqueness. -/
def indexesMatch (a b : Index) : Bool :=
  a.columns == b.columns && a.unique == b.unique

/-- Modelled from the spec (§4.2): matched index pairs of a table pair. -/
def indexPairs (tp : Pair (Nat × Table)) : List (Pair (Nat × Index)) :=
  (withIdx tp.previous.2.indexes).filterMap (fun pidx =>
    ((withIdx tp.next.2.indexes).find? (fun nidx =>
      indexesMatch pidx.2 nidx.2)).map (fun nidx => ⟨pidx, nidx⟩))

/-- Modelled from the spec (§4.2): next-only indexes of a table pair. -/
def createdIndexes (tp : Pair (Nat × Table)) : List (Nat × Index) :=
  (withIdx tp.next.2.indexes).filter (fun nidx =>
    !((withIdx tp.previous.2.indexes).any (fun pidx => indexesMatch pidx.2 nidx.2)))

/-- Modelled from the spec (§4.2): previous-only indexes of a table pair. -/
def droppedIndexes (tp : Pair (Nat × Table)) : List (Nat × Index) :=
  (withIdx tp.previous.2.indexes).filter (fun pidx =>
    !((withIdx tp.next.2.indexes).any (fun nidx => indexesMatch pidx.2 nidx.2)))

/-- Walker resolution of a foreign key's constrained column names to the
columns of its owning table (describer walkers are external). -/
def constrainedColumnWalkers (t : Table) (fk : ForeignKey) : List Column :=
  fk.constrainedColumns.filterMap (fun n => t.columns.find? (fun c => c.name == n))

/-- `foreign_keys_match` from the source: whether two foreign keys should be
considered equivalent for diffing purposes. -/
def foreignKeysMatch (flavour : SqlFlavour) (prevTable nextTable : Table)
    (pfk nfk : ForeignKey) : Bool :=
  let referencesSameTable :=
    flavour.tableNamesMatch pfk.referencedTable nfk.referencedTable
  let referencesSameColumnCount :=
    pfk.referencedColumns.length == nfk.referencedColumns.length
  let constrainedPrev := constrainedColumnWalkers prevTable pfk
  let constrainedNext := constrainedColumnWalkers nextTable nfk
  let constrainsSameColumnCount := constrainedPrev.length == constrainedNext.length
  let constrainsSameColumns := (constrainedPrev.zip constrainedNext).all (fun cc =>
    let familiesMatch :=
      match cc.1.family, cc.2.family with
      | ColumnTypeFamily.uuid, ColumnTypeFamily.string => true
      | ColumnTypeFamily.string, ColumnTypeFamily.uuid => true
      | x, y => x == y
    cc.1.name == cc.2.name && familiesMatch)
  let referencesSameColumns :=
    (pfk.referencedColumns.zip nfk.referencedColumns).all (fun rc => rc.1 == rc.2)
  referencesSameTable && referencesSameColumnCount && constrainsSameColumnCount &&
    constrainsSameColumns && referencesSameColumns

/-- Modelled from the spec (§4.2): next-only foreign keys of a table pair
(those with no previous foreign key passing `foreignKeysMatch`). -/
def createdForeignKeys (flavour : SqlFlavour) (tp : Pair (Nat × Table)) :
    List (Nat × ForeignKey) :=
  (withIdx tp.next.2.foreignKeys).filter (fun nfk =>
    !((withIdx tp.previous.2.foreignKeys).any (fun pfk =>
      foreignKeysMatch flavour tp.previous.2 tp.next.2 pfk.2 nfk.2)))

/-- Modelled from the spec (§4.2): previous-only foreign keys of a table pair. -/
def droppedForeignKeys (flavour : SqlFlavour) (tp : Pair (Nat × Table)) :
    List (Nat × ForeignKey) :=
  (withIdx tp.previous.2.foreignKeys).filter (fun pfk =>
    !((withIdx tp.next.2.foreignKeys).any (fun nfk =>
      foreignKeysMatch flavour tp.previous.2 tp.next.2 pfk.2 nfk.2)))

/-- Modelled from the spec (§4.2): the primary key created by a table pair —
present only in next, or changed (ordered position lists compared for
equality). -/
def createdPrimaryKey (tp : Pair (Nat × Table)) : Option (List Nat) :=
  match tp.previous.2.primaryKey, tp.next.2.primaryKey with
  | none, some pk => some pk
  | some prevPk, some nextPk => if prevPk == nextPk then none else some nextPk
  | _, none => none

/-- Modelled from the spec (§4.2): the primary key dropped by a table pair. -/
def droppedPrimaryKey (tp : Pair (Nat × Table)) : Option (List Nat) :=
  match tp.previous.2.primaryKey, tp.next.2.primaryKey with
  | some pk, none => some pk
  | some prevPk, some nextPk => if prevPk == nextPk then none else some prevPk
  | none, _ => none

/-- Whether the column at a given position belongs to the table's primary key
(`is_part_of_primary_key` of the describer walkers). -/
def isPartOfPrimaryKey (t : Table) (colIdx : Nat) : Bool :=
  (t.primaryKey.getD []).contains colIdx

/-- `primary_key_columns` of the describer walkers. -/
def primaryKeyColumns (t : Table) : List Nat :=
  t.primaryKey.getD []

/-- Modelled from the spec (§4.3, `column.rs` absent): the change set of a
matched column pair, and the flavour's type-cast classification, asked for
exactly when the type family or the native type differs. -/
def columnAllChanges (flavour : SqlFlavour) (prev next : Column) :
    ColumnChanges × Option ColumnTypeChange :=
  let typeDiffers := !(prev.family == next.family) || !(prev.nativeType == next.nativeType)
  let changes : ColumnChanges :=
    { renamed := !(prev.name == next.name)
      arityChanged := !(prev.arity == next.arity)
      defaultChanged := !(prev.defaultValue == next.defaultValue)
      typeChanged := typeDiffers }
  let typeChange := if typeDiffers then some (flavour.columnTypeChange prev next) else none
  (changes, typeChange)

/-- The change emitted for one matched column pair, from `alter_columns` in
the source: skip when nothing differs, `DropAndRecreateColumn` on a
`NotCastable` classification, `AlterColumn` with the classification tag
otherwise. -/
def alterColumnChange (flavour : SqlFlavour) (p : Pair (Nat × Column)) :
    Option TableChange :=
  if !(differsInSomething (columnAllChanges flavour p.previous.2 p.next.2).1) then none
  else
    match (columnAllChanges flavour p.previous.2 p.next.2).2 with
    | some ColumnTypeChange.notCastable =>
        some (TableChange.dropAndRecreateColumn ⟨p.previous.1, p.next.1⟩
          (columnAllChanges flavour p.previous.2 p.next.2).1)
    | some ColumnTypeChange.riskyCast =>
        some (TableChange.alterColumn ⟨p.previous.1, p.next.1⟩
          (columnAllChanges flavour p.previous.2 p.next.2).1
          (some ColumnTypeChange.riskyCast))
    | some ColumnTypeChange.safeCast =>
        some (TableChange.alterColumn ⟨p.previous.1, p.next.1⟩
          (columnAllChanges flavour p.previous.2 p.next.2).1
          (some ColumnTypeChange.safeCast))
    | none =>
        some (TableChange.alterColumn ⟨p.previous.1, p.next.1⟩
          (columnAllChanges flavour p.previous.2 p.next.2).1 none)

/-- `alter_columns` from the source, over the matched column pairs. -/
def alterColumns (flavour : SqlFlavour) (tp : Pair (Nat × Table)) : List TableChange :=
  (columnPairs flavour tp).filterMap (alterColumnChange flavour)

/-- `drop_columns` from the source. -/
def dropColumnChanges (flavour : SqlFlavour) (tp : Pair (Nat × Table)) : List TableChange :=
  (droppedColumns flavour tp).map (fun c => TableChange.dropColumn c.1)

/-- `add_columns` from the source. -/
def addColumnChanges (flavour : SqlFlavour) (tp : Pair (Nat × Table)) : List TableChange :=
  (addedColumns flavour tp).map (fun c => TableChange.addColumn c.1)

/-- `from_recreate` of `drop_primary_key`/`add_primary_key` in the source:
whether some altered column is drop-and-recreated and its previous column
belongs to the primary key. -/
def pkRecreateForced (flavour : SqlFlavour) (tp : Pair (Nat × Table)) : Bool :=
  (alterColumns flavour tp).any (fun tc =>
    match tc with
    | TableChange.dropAndRecreateColumn columnIndex _ =>
        isPartOfPrimaryKey tp.previous.2 columnIndex.previous
    | _ => false)

/-- `from_psl_change` of `drop_primary_key` in the source. -/
def fromPslDropPrimaryKey (tp : Pair (Nat × Table)) : Option TableChange :=
  (droppedPrimaryKey tp).map (fun _ => TableChange.dropPrimaryKey)

/-- `from_psl_change` of `add_primary_key` in the source: a created primary
key is only emitted with a nonempty column list. -/
def fromPslAddPrimaryKey (tp : Pair (Nat × Table)) : Option TableChange :=
  Option.bind (createdPrimaryKey tp) (fun pk =>
    if pk.isEmpty then none else some (TableChange.addPrimaryKey pk))

/-- `drop_primary_key` from the source: a dropped primary key, or — when the
flavour recreates the primary key on destructive column recreation — a drop
forced by a `DropAndRecreateColumn` touching a primary-key column. -/
def dropPrimaryKeyChange (flavour : SqlFlavour) (tp : Pair (Nat × Table)) :
    Option TableChange :=
  if flavour.shouldRecreateThePrimaryKeyOnColumnRecreate then
    match fromPslDropPrimaryKey tp with
    | some c => some c
    | none =>
        if pkRecreateForced flavour tp then some TableChange.dropPrimaryKey else none
  else fromPslDropPrimaryKey tp

/-- `add_primary_key` from the source: a created primary key with a nonempty
column list, or — under the recreate-on-column-recreate capability — the
previous table's primary key re-added after a destructive recreation of one
of its columns. -/
def addPrimaryKeyChange (flavour : SqlFlavour) (tp : Pair (Nat × Table)) :
    Option TableChange :=
  if flavour.shouldRecreateThePrimaryKeyOnColumnRecreate then
    match fromPslAddPrimaryKey tp with
    | some c => some c
    | none =>
        if pkRecreateForced flavour tp then
          some (TableChange.addPrimaryKey (primaryKeyColumns tp.previous.2))
        else none
  else fromPslAddPrimaryKey tp

/-- The ordered change list of one table pair, from `alter_tables` in the
source: drop primary key, dropped columns, added columns, altered or
recreated columns, add primary key. -/
def alterTableChanges (flavour : SqlFlavour) (tp : Pair (Nat × Table)) : List TableChange :=
  (dropPrimaryKeyChange flavour tp).toList ++
    dropColumnChanges flavour tp ++
    addColumnChanges flavour tp ++
    alterColumns flavour tp ++
    (addPrimaryKeyChange flavour tp).toList

/-- `alter_tables` from the source: one `AlterTable` per matched pair with a
nonempty change list. -/
def alterTables (schemas : Pair SqlSchema) (flavour : SqlFlavour) : List AlterTableStep :=
  (tablePairs schemas flavour).filterMap (fun tp =>
    let changes := alterTableChanges flavour tp
    if changes.isEmpty then none
    else some { tableIndex := ⟨tp.previous.1, tp.next.1⟩, changes := changes })

/-- Modelled from the spec (§4.6 phase 9, flavour decision): the table pairs
routed to the full-rebuild path, selected by the flavour from each pair's
change list. -/
def tablesToRedefine (schemas : Pair SqlSchema) (flavour : SqlFlavour) :
    List (Pair (Nat × Table)) :=
  (tablePairs schemas flavour).filter (fun tp =>
    flavour.shouldRedefineTable (alterTableChanges flavour tp))

/-- `redefine_tables` from the source. -/
def redefineTablesList (schemas : Pair SqlSchema) (flavour : SqlFlavour) :
    List RedefineTableStep :=
  (tablesToRedefine schemas flavour).map (fun tp =>
    { tableIndex := ⟨tp.previous.1, tp.next.1⟩
      droppedPrimaryKey := (dropPrimaryKeyChange flavour tp).isSome
      addedColumns := (addedColumns flavour tp).map (fun c => c.1)
      droppedColumns := (droppedColumns flavour tp).map (fun c => c.1)
      columnPairs := (columnPairs flavour tp).map (fun p =>
        (⟨p.previous.1, p.next.1⟩, columnAllChanges flavour p.previous.2 p.next.2)) })

/-- `drop_tables` from the source, first component: one `DropTable` per
dropped table. -/
def dropTablesList (schemas : Pair SqlSchema) (flavour : SqlFlavour) : List Nat :=
  (droppedTables schemas flavour).map (fun t => t.1)

/-- `drop_tables` from the source, second component: the foreign keys of
dropped tables, skipping foreign keys without a constraint name. -/
def droppedTablesForeignKeys (schemas : Pair SqlSchema) (flavour : SqlFlavour) :
    List DropForeignKeyStep :=
  (droppedTables schemas flavour).flatMap (fun dt =>
    (withIdx dt.2.foreignKeys).filterMap (fun fk =>
      fk.2.constraintName.map (fun nm =>
        { tableIndex := dt.1
          foreignKeyIndex := fk.1
          table := dt.2.name
          constraintName := nm })))

/-- `push_drop_foreign_keys` from the source: dropped foreign keys of matched
table pairs, skipping foreign keys without a constraint name. -/
def pairDroppedForeignKeySteps (schemas : Pair SqlSchema) (flavour : SqlFlavour) :
    List DropForeignKeyStep :=
  (tablePairs schemas flavour).flatMap (fun tp =>
    (droppedForeignKeys flavour tp).filterMap (fun fk =>
      fk.2.constraintName.map (fun nm =>
        { tableIndex := tp.previous.1
          foreignKeyIndex := fk.1
          table := tp.previous.2.name
          constraintName := nm })))

/-- The full `DropForeignKey` list: dropped tables' foreign keys first, then
the dropped foreign keys of surviving table pairs, as in `calculate_steps`. -/
def dropForeignKeysList (schemas : Pair SqlSchema) (flavour : SqlFlavour) :
    List DropForeignKeyStep :=
  droppedTablesForeignKeys schemas flavour ++ pairDroppedForeignKeySteps schemas flavour

/-- Modelled from `index.rs` (absent; per the spec, foreign keys may
auto-create indexes that must be skipped): whether an index covers a foreign
key of its table, i.e. constrains exactly that foreign key's columns. -/
def indexCoversFk (t : Table) (idx : Index) : Bool :=
  t.foreignKeys.any (fun fk => fk.constrainedColumns == idx.columns)

/-- Insertion into the model of the `HashSet` accumulating `DropIndex` steps:
insertion-ordered, dropping duplicates. The Rust `HashSet` iterates in a
seed-dependent order; this model fixes insertion order, which is the only
order derivable from the inputs. -/
def insertIfAbsent [DecidableEq α] (acc : List α) (x : α) : List α :=
  if x ∈ acc then acc else acc ++ [x]

/-- The `DropIndex` entries discovered on matched table pairs, in pair order
(`drop_indexes` in the source, first loop), skipping foreign-key-covering
indexes when the flavour auto-creates indexes for foreign keys. -/
def pairDropIndexEntries (schemas : Pair SqlSchema) (flavour : SqlFlavour) :
    List DropIndexStep :=
  (tablePairs schemas flavour).flatMap (fun tp =>
    (droppedIndexes tp).filterMap (fun idx =>
      if flavour.shouldSkipFkIndexes && indexCoversFk tp.previous.2 idx.2 then none
      else some { tableIndex := tp.previous.1, indexIndex := idx.1 }))

/-- The `DropIndex` entries for indexes of dropped tables (`drop_indexes` in
the source, second loop), gated on a nonempty redefine set and the
flavour capability. -/
def droppedTableDropIndexEntries (schemas : Pair SqlSchema) (flavour : SqlFlavour) :
    List DropIndexStep :=
  if !(tablesToRedefine schemas flavour).isEmpty &&
      flavour.shouldDropIndexesFromDroppedTables then
    (droppedTables schemas flavour).flatMap (fun dt =>
      (withIdx dt.2.indexes).map (fun idx =>
        { tableIndex := dt.1, indexIndex := idx.1 }))
  else []

/-- `drop_indexes` from the source: both entry sources accumulated through
the (insertion-ordered model of the) hash set. -/
def dropIndexesList (schemas : Pair SqlSchema) (flavour : SqlFlavour) :
    List DropIndexStep :=
  (pairDropIndexEntries schemas flavour ++ droppedTableDropIndexEntries schemas flavour).foldl
    insertIfAbsent []

/-- Walker resolution of an index's column names against its table. -/
def indexColumnWalkers (t : Table) (idx : Index) : List (Nat × Column) :=
  idx.columns.filterMap (fun n => (withIdx t.columns).find? (fun c => c.2.name == n))

/-- `create_indexes` from the source: indexes of created tables (when the
flavour pushes them as separate steps), created indexes of matched pairs,
and — when the flavour recreates indexes after destructive column
recreation — matched indexes touching a `NotCastable` column. -/
def createIndexesFromCreatedTables (schemas : Pair SqlSchema) (flavour : SqlFlavour) :
    List CreateIndexStep :=
  if flavour.shouldCreateIndexesFromCreatedTables then
    (createdTables schemas flavour).flatMap (fun t =>
      (withIdx t.2.indexes).filterMap (fun idx =>
        if flavour.shouldSkipIndexForNewTable idx.2 then none
        else some { tableIndex := t.1, indexIndex := idx.1, causedByCreateTable := true }))
  else []

/-- The next-snapshot positions of columns destructively recreated
(`NotCastable`) in a table pair (`create_indexes` in the source). -/
def notCastableNextColumns (flavour : SqlFlavour) (tp : Pair (Nat × Table)) : List Nat :=
  (columnPairs flavour tp).filterMap (fun p =>
    if (columnAllChanges flavour p.previous.2 p.next.2).2 ==
        some ColumnTypeChange.notCastable then some p.next.1 else none)

/-- The matched indexes re-emitted because one of their columns was
destructively recreated, when the flavour requires it (`create_indexes` in
the source). -/
def recreatedIndexSteps (flavour : SqlFlavour) (tp : Pair (Nat × Table)) :
    List CreateIndexStep :=
  if flavour.indexesShouldBeRecreatedAfterColumnDrop then
    (indexPairs tp).filterMap (fun ip =>
      if (indexColumnWalkers tp.next.2 ip.next.2).any (fun c =>
          (notCastableNextColumns flavour tp).contains c.1) then
        some { tableIndex := tp.next.1, indexIndex := ip.next.1,
               causedByCreateTable := false }
      else none)
  else []

/-- The created indexes of a matched table pair as `CreateIndex` steps. -/
def createdIndexSteps (tp : Pair (Nat × Table)) : List CreateIndexStep :=
  (createdIndexes tp).map (fun idx =>
    { tableIndex := tp.next.1, indexIndex := idx.1, causedByCreateTable := false })

/-- `create_indexes` from the source: indexes of created tables (when the
flavour pushes them as separate steps), then per matched pair its created
indexes followed by the recreated ones. -/
def createIndexesList (schemas : Pair SqlSchema) (flavour : SqlFlavour) :
    List CreateIndexStep :=
  createIndexesFromCreatedTables schemas flavour ++
    (tablePairs schemas flavour).flatMap (fun tp =>
      createdIndexSteps tp ++ recreatedIndexSteps flavour tp)

/-- `add_foreign_keys` from the source: foreign keys of created tables (when
pushed separately), then created foreign keys of matched pairs. -/
def addForeignKeysList (schemas : Pair SqlSchema) (flavour : SqlFlavour) :
    List AddForeignKeyStep :=
  (if flavour.shouldPushForeignKeysFromCreatedTables then
    (createdTables schemas flavour).flatMap (fun t =>
      (withIdx t.2.foreignKeys).map (fun fk =>
        ({ tableIndex := t.1, foreignKeyIndex := fk.1 } : AddForeignKeyStep)))
  else []) ++
    (tablePairs schemas flavour).flatMap (fun tp =>
      (createdForeignKeys flavour tp).map (fun fk =>
        { tableIndex := tp.next.1, foreignKeyIndex := fk.1 }))

/-- `alter_indexes` from the source: matched index pairs the flavour says
must be renamed, carrying (table index, index index) for both snapshots. -/
def alterIndexesList (schemas : Pair SqlSchema) (flavour : SqlFlavour) :
    List (Pair (Nat × Nat)) :=
  (tablePairs schemas flavour).flatMap (fun tp =>
    (indexPairs tp).filterMap (fun ip =>
      if flavour.indexShouldBeRenamed ip.previous.2 ip.next.2 then
        some ⟨(tp.previous.1, ip.previous.1), (tp.next.1, ip.next.1)⟩
      else none))

/-- `enums_match` from the source: enums correspond iff their names are equal. -/
def enumsMatch (a b : Enum) : Bool :=
  a.name == b.name

/-- The enums of the previous snapshot, with positions. -/
def previousEnums (schemas : Pair SqlSchema) : List (Nat × Enum) :=
  withIdx schemas.previous.enums

/-- The enums of the next snapshot, with positions. -/
def nextEnums (schemas : Pair SqlSchema) : List (Nat × Enum) :=
  withIdx schemas.next.enums

/-- `enum_pairs` from the source. -/
def enumPairs (schemas : Pair SqlSchema) : List (Pair (Nat × Enum)) :=
  (previousEnums schemas).filterMap (fun pe =>
    ((nextEnums schemas).find? (fun ne0 => enumsMatch pe.2 ne0.2)).map
      (fun ne0 => ⟨pe, ne0⟩))

/-- `created_enums` from the source. -/
def createdEnums (schemas : Pair SqlSchema) : List (Nat × Enum) :=
  (nextEnums schemas).filter (fun ne0 =>
    !((previousEnums schemas).any (fun pe => enumsMatch pe.2 ne0.2)))

/-- `dropped_enums` from the source. -/
def droppedEnums (schemas : Pair SqlSchema) : List (Nat × Enum) :=
  (previousEnums schemas).filter (fun pe =>
    !((nextEnums schemas).any (fun ne0 => enumsMatch pe.2 ne0.2)))

/-- Modelled from the spec (§4.5, flavour enum decision): engines with native
enums create every created enum; others produce no enum steps. -/
def createEnumsList (schemas : Pair SqlSchema) (flavour : SqlFlavour) : List Nat :=
  if flavour.hasNativeEnums then (createdEnums schemas).map (fun e => e.1) else []

/-- Modelled from the spec (§4.5, flavour enum decision). -/
def dropEnumsList (schemas : Pair SqlSchema) (flavour : SqlFlavour) : List Nat :=
  if flavour.hasNativeEnums then (droppedEnums schemas).map (fun e => e.1) else []

/-- Modelled from the spec (§4.4/§4.5): matched enum pairs whose variant
lists differ yield an `AlterEnum` with the created and dropped variants
(usages filled in by the assembler). -/
def alterEnumsBase (schemas : Pair SqlSchema) (flavour : SqlFlavour) : List AlterEnumStep :=
  if flavour.hasNativeEnums then
    (enumPairs schemas).filterMap (fun ep =>
      if ep.previous.2.variants == ep.next.2.variants then none
      else some
        { index := ⟨ep.previous.1, ep.next.1⟩
          createdVariants := ep.next.2.variants.filter
            (fun v => !(ep.previous.2.variants.contains v))
          droppedVariants := ep.previous.2.variants.filter
            (fun v => !(ep.next.2.variants.contains v))
          previousUsagesAsDefault := [] })
  else []

/-- `column_type_is_enum` of the describer walkers. -/
def columnTypeIsEnum (c : Column) (enumName : String) : Bool :=
  c.family == ColumnTypeFamily.enum enumName

/-- `push_previous_usages_as_defaults_in_altered_enums` from the source, for
one altered enum: every column of a dropped table, every dropped column, and
every previous column of a matched pair whose previous type is the altered
enum and which carries a default, with — for matched pairs — the next column
when it still uses the enum as a default. -/
def previousUsages (schemas : Pair SqlSchema) (flavour : SqlFlavour)
    (step : AlterEnumStep) : List ((Nat × Nat) × Option (Nat × Nat)) :=
  let prevName := ((schemas.previous.enums.get? step.index.previous).getD
    { name := "", variants := [] }).name
  let nextName := ((schemas.next.enums.get? step.index.next).getD
    { name := "", variants := [] }).name
  let fromDroppedTables := (droppedTables schemas flavour).flatMap (fun dt =>
    (withIdx dt.2.columns).filterMap (fun c =>
      if columnTypeIsEnum c.2 prevName && c.2.defaultValue.isSome then
        some ((dt.1, c.1), none)
      else none))
  let fromPairs := (tablePairs schemas flavour).flatMap (fun tp =>
    let fromDroppedColumns := (droppedColumns flavour tp).filterMap (fun c =>
      if columnTypeIsEnum c.2 prevName && c.2.defaultValue.isSome then
        some ((tp.previous.1, c.1), none)
      else none)
    let fromColumnPairs := (columnPairs flavour tp).filterMap (fun p =>
      if columnTypeIsEnum p.previous.2 prevName && p.previous.2.defaultValue.isSome then
        let nextUsage :=
          if columnTypeIsEnum p.next.2 nextName && p.next.2.defaultValue.isSome then
            some (tp.next.1, p.next.1)
          else none
        some ((tp.previous.1, p.previous.1), nextUsage)
      else none)
    fromDroppedColumns ++ fromColumnPairs)
  fromDroppedTables ++ fromPairs

/-- The `AlterEnum` steps with previous usages filled in. -/
def alterEnumsList (schemas : Pair SqlSchema) (flavour : SqlFlavour) : List AlterEnumStep :=
  (alterEnumsBase schemas flavour).map (fun s =>
    { s with previousUsagesAsDefault := previousUsages schemas flavour s })

/-- `create_tables` from the source. -/
def createTablesList (schemas : Pair SqlSchema) (flavour : SqlFlavour) : List Nat :=
  (createdTables schemas flavour).map (fun t => t.1)

/-- The `RedefineTables` step, present only when the redefine set is
nonempty, as in `calculate_steps`. -/
def redefineTablesSteps (schemas : Pair SqlSchema) (flavour : SqlFlavour) :
    List SqlMigrationStep :=
  let ts := redefineTablesList schemas flavour
  if ts.isEmpty then [] else [SqlMigrationStep.redefineTables ts]

/-- The `AlterIndex` steps: populated only when the flavour can alter
indexes in place (the source moves the list into the redefine branch
otherwise). -/
def alterIndexSteps (schemas : Pair SqlSchema) (flavour : SqlFlavour) :
    List SqlMigrationStep :=
  (if flavour.canAlterIndex then alterIndexesList schemas flavour else []).map (fun p =>
    SqlMigrationStep.alterIndex ⟨p.previous.1, p.next.1⟩ ⟨p.previous.2, p.next.2⟩)

/-- The `RedefineIndex` steps: the renamed index pairs when in-place altering
is not supported. -/
def redefineIndexSteps (schemas : Pair SqlSchema) (flavour : SqlFlavour) :
    List SqlMigrationStep :=
  (if flavour.canAlterIndex then [] else alterIndexesList schemas flavour).map (fun p =>
    SqlMigrationStep.redefineIndex ⟨p.previous.1, p.next.1⟩ ⟨p.previous.2, p.next.2⟩)

/-- `calculate_steps` from the source: the chained concatenation of the
thirteen phases in their fixed order. -/
def calculateSteps (schemas : Pair SqlSchema) (flavour : SqlFlavour) :
    List SqlMigrationStep :=
  (createEnumsList schemas flavour).map SqlMigrationStep.createEnum ++
    (alterEnumsList schemas flavour).map SqlMigrationStep.alterEnum ++
    (dropForeignKeysList schemas flavour).map SqlMigrationStep.dropForeignKey ++
    (dropIndexesList schemas flavour).map SqlMigrationStep.dropIndex ++
    (alterTables schemas flavour).map SqlMigrationStep.alterTable ++
    (dropTablesList schemas flavour).map SqlMigrationStep.dropTable ++
    (dropEnumsList schemas flavour).map SqlMigrationStep.dropEnum ++
    (createTablesList schemas flavour).map SqlMigrationStep.createTable ++
    redefineTablesSteps schemas flavour ++
    (createIndexesList schemas flavour).map SqlMigrationStep.createIndex ++
    (addForeignKeysList schemas flavour).map SqlMigrationStep.addForeignKey ++
    alterIndexSteps schemas flavour ++
    redefineIndexSteps schemas flavour

/-- The phase of a step: the thirteen step kinds numbered in the emission
order of `calculate_steps` (0 = `CreateEnum` … 12 = `RedefineIndex`). -/
def stepPhase : SqlMigrationStep → Nat
  | SqlMigrationStep.createEnum _ => 0
  | SqlMigrationStep.alterEnum _ => 1
  | SqlMigrationStep.dropForeignKey _ => 2
  | SqlMigrationStep.dropIndex _ => 3
  | SqlMigrationStep.alterTable _ => 4
  | SqlMigrationStep.dropTable _ => 5
  | SqlMigrationStep.dropEnum _ => 6
  | SqlMigrationStep.createTable _ => 7
  | SqlMigrationStep.redefineTables _ => 8
  | SqlMigrationStep.createIndex _ => 9
  | SqlMigrationStep.addForeignKey _ => 10
  | SqlMigrationStep.alterIndex _ _ => 11
  | SqlMigrationStep.redefineIndex _ _ => 12

theorem pairwise_le_of_const {α : Type} (f : α → Nat) (i : Nat) (l : List α)
    (h : ∀ x ∈ l, f x = i) : l.Pairwise (fun a b => f a ≤ f b) := by
  induction l with
  | nil => exact List.Pairwise.nil
  | cons a t ih =>
      constructor
      · intro b hb
        rw [h a (List.mem_cons_self a t), h b (List.mem_cons_of_mem a hb)]
      · exact ih (fun x hx => h x (List.mem_cons_of_mem a hx))

theorem pairwise_le_chain_step {α : Type} (f : α → Nat) (i : Nat) (l1 l2 : List α)
    (h1 : ∀ x ∈ l1, f x = i) (h2 : ∀ y ∈ l2, i ≤ f y)
    (p2 : l2.Pairwise (fun a b => f a ≤ f b)) :
    (l1 ++ l2).Pairwise (fun a b => f a ≤ f b) ∧ ∀ y ∈ l1 ++ l2, i ≤ f y := by
  constructor
  · rw [List.pairwise_append]
    exact ⟨pairwise_le_of_const f i l1 h1, p2,
      fun a ha b hb => (h1 a ha) ▸ h2 b hb⟩
  · intro y hy
    rcases List.mem_append.mp hy with h | h
    · exact le_of_eq (h1 y h).symm
    · exact h2 y h

theorem mem_redefineTablesSteps (schemas : Pair SqlSchema) (flavour : SqlFlavour)
    {x : SqlMigrationStep} (h : x ∈ redefineTablesSteps schemas flavour) :
    x = SqlMigrationStep.redefineTables (redefineTablesList schemas flavour) := by
  unfold redefineTablesSteps at h
  by_cases hc : (redefineTablesList schemas flavour).isEmpty
  · simp [hc] at h
  · simp [hc] at h
    exact h

/-- **C1.** For every pair of snapshots and every flavour, the step list
returned by `calculateSteps` is the concatenation of the thirteen phases in
the fixed order `CreateEnum`, `AlterEnum`, `DropForeignKey`, `DropIndex`,
`AlterTable`, `DropTable`, `DropEnum`, `CreateTable`, `RedefineTable`,
`CreateIndex`, `AddForeignKey`, `AlterIndex`, `RedefineIndex`: no step of a
later phase ever precedes a step of an earlier phase in the output. -/
theorem calculate_steps_phase_order (schemas : Pair SqlSchema) (flavour : SqlFlavour) :
    (calculateSteps schemas flavour).Pairwise
      (fun a b => stepPhase a ≤ stepPhase b) := by
  have hb0 : ∀ s ∈ (createEnumsList schemas flavour).map SqlMigrationStep.createEnum,
      stepPhase s = 0 := by
    intro s hs; rw [List.mem_map] at hs; obtain ⟨a, -, rfl⟩ := hs; rfl
  have hb1 : ∀ s ∈ (alterEnumsList schemas flavour).map SqlMigrationStep.alterEnum,
      stepPhase s = 1 := by
    intro s hs; rw [List.mem_map] at hs; obtain ⟨a, -, rfl⟩ := hs; rfl
  have hb2 : ∀ s ∈ (dropForeignKeysList schemas flavour).map SqlMigrationStep.dropForeignKey,
      stepPhase s = 2 := by
    intro s hs; rw [List.mem_map] at hs; obtain ⟨a, -, rfl⟩ := hs; rfl
  have hb3 : ∀ s ∈ (dropIndexesList schemas flavour).map SqlMigrationStep.dropIndex,
      stepPhase s = 3 := by
    intro s hs; rw [List.mem_map] at hs; obtain ⟨a, -, rfl⟩ := hs; rfl
  have hb4 : ∀ s ∈ (alterTables schemas flavour).map SqlMigrationStep.alterTable,
      stepPhase s = 4 := by
    intro s hs; rw [List.mem_map] at hs; obtain ⟨a, -, rfl⟩ := hs; rfl
  have hb5 : ∀ s ∈ (dropTablesList schemas flavour).map SqlMigrationStep.dropTable,
      stepPhase s = 5 := by
    intro s hs; rw [List.mem_map] at hs; obtain ⟨a, -, rfl⟩ := hs; rfl
  have hb6 : ∀ s ∈ (dropEnumsList schemas flavour).map SqlMigrationStep.dropEnum,
      stepPhase s = 6 := by
    intro s hs; rw [List.mem_map] at hs; obtain ⟨a, -, rfl⟩ := hs; rfl
  have hb7 : ∀ s ∈ (createTablesList schemas flavour).map SqlMigrationStep.createTable,
      stepPhase s = 7 := by
    intro s hs; rw [List.mem_map] at hs; obtain ⟨a, -, rfl⟩ := hs; rfl
  have hb8 : ∀ s ∈ redefineTablesSteps schemas flavour, stepPhase s = 8 := by
    intro s hs
    rw [mem_redefineTablesSteps schemas flavour hs]; rfl
  have hb9 : ∀ s ∈ (createIndexesList schemas flavour).map SqlMigrationStep.createIndex,
      stepPhase s = 9 := by
    intro s hs; rw [List.mem_map] at hs; obtain ⟨a, -, rfl⟩ := hs; rfl
  have hb10 : ∀ s ∈ (addForeignKeysList schemas flavour).map SqlMigrationStep.addForeignKey,
      stepPhase s = 10 := by
    intro s hs; rw [List.mem_map] at hs; obtain ⟨a, -, rfl⟩ := hs; rfl
  have hb11 : ∀ s ∈ alterIndexSteps schemas flavour, stepPhase s = 11 := by
    intro s hs
    unfold alterIndexSteps at hs
    rw [List.mem_map] at hs; obtain ⟨a, -, rfl⟩ := hs; rfl
  have hb12 : ∀ s ∈ redefineIndexSteps schemas flavour, stepPhase s = 12 := by
    intro s hs
    unfold redefineIndexSteps at hs
    rw [List.mem_map] at hs; obtain ⟨a, -, rfl⟩ := hs; rfl
  have p12 := pairwise_le_of_const stepPhase 12 _ hb12
  have b12 : ∀ y ∈ redefineIndexSteps schemas flavour, 12 ≤ stepPhase y :=
    fun y hy => le_of_eq (hb12 y hy).symm
  have s11 := pairwise_le_chain_step stepPhase 11 _ _ hb11
    (fun y hy => le_trans (by omega) (b12 y hy)) p12
  have s10 := pairwise_le_chain_step stepPhase 10 _ _ hb10
    (fun y hy => le_trans (by omega) (s11.2 y hy)) s11.1
  have s9 := pairwise_le_chain_step stepPhase 9 _ _ hb9
    (fun y hy => le_trans (by omega) (s10.2 y hy)) s10.1
  have s8 := pairwise_le_chain_step stepPhase 8 _ _ hb8
    (fun y hy => le_trans (by omega) (s9.2 y hy)) s9.1
  have s7 := pairwise_le_chain_step stepPhase 7 _ _ hb7
    (fun y hy => le_trans (by omega) (s8.2 y hy)) s8.1
  have s6 := pairwise_le_chain_step stepPhase 6 _ _ hb6
    (fun y hy => le_trans (by omega) (s7.2 y hy)) s7.1
  have s5 := pairwise_le_chain_step stepPhase 5 _ _ hb5
    (fun y hy => le_trans (by omega) (s6.2 y hy)) s6.1
  have s4 := pairwise_le_chain_step stepPhase 4 _ _ hb4
    (fun y hy => le_trans (by omega) (s5.2 y hy)) s5.1
  have s3 := pairwise_le_chain_step stepPhase 3 _ _ hb3
    (fun y hy => le_trans (by omega) (s4.2 y hy)) s4.1
  have s2 := pairwise_le_chain_step stepPhase 2 _ _ hb2
    (fun y hy => le_trans (by omega) (s3.2 y hy)) s3.1
  have s1 := pairwise_le_chain_step stepPhase 1 _ _ hb1
    (fun y hy => le_trans (by omega) (s2.2 y hy)) s2.1
  have s0 := pairwise_le_chain_step stepPhase 0 _ _ hb0
    (fun y hy => le_trans (by omega) (s1.2 y hy)) s1.1
  have heq : calculateSteps schemas flavour =
      (createEnumsList schemas flavour).map SqlMigrationStep.createEnum ++
        ((alterEnumsList schemas flavour).map SqlMigrationStep.alterEnum ++
          ((dropForeignKeysList schemas flavour).map SqlMigrationStep.dropForeignKey ++
            ((dropIndexesList schemas flavour).map SqlMigrationStep.dropIndex ++
              ((alterTables schemas flavour).map SqlMigrationStep.alterTable ++
                ((dropTablesList schemas flavour).map SqlMigrationStep.dropTable ++
                  ((dropEnumsList schemas flavour).map SqlMigrationStep.dropEnum ++
                    ((createTablesList schemas flavour).map SqlMigrationStep.createTable ++
                      (redefineTablesSteps schemas flavour ++
                        ((createIndexesList schemas flavour).map SqlMigrationStep.createIndex ++
                          ((addForeignKeysList schemas flavour).map
                              SqlMigrationStep.addForeignKey ++
                            (alterIndexSteps schemas flavour ++
                              redefineIndexSteps schemas flavour))))))))))) := by
    simp [calculateSteps, List.append_assoc]
  rw [heq]
  exact s0.1

/-- Membership in the assembled step list resolves to membership in one of
the thirteen phase blocks. -/
theorem mem_calculateSteps_cases {schemas : Pair SqlSchema} {flavour : SqlFlavour}
    {s : SqlMigrationStep} (h : s ∈ calculateSteps schemas flavour) :
    s ∈ (createEnumsList schemas flavour).map SqlMigrationStep.createEnum ∨
    s ∈ (alterEnumsList schemas flavour).map SqlMigrationStep.alterEnum ∨
    s ∈ (dropForeignKeysList schemas flavour).map SqlMigrationStep.dropForeignKey ∨
    s ∈ (dropIndexesList schemas flavour).map SqlMigrationStep.dropIndex ∨
    s ∈ (alterTables schemas flavour).map SqlMigrationStep.alterTable ∨
    s ∈ (dropTablesList schemas flavour).map SqlMigrationStep.dropTable ∨
    s ∈ (dropEnumsList schemas flavour).map SqlMigrationStep.dropEnum ∨
    s ∈ (createTablesList schemas flavour).map SqlMigrationStep.createTable ∨
    s ∈ redefineTablesSteps schemas flavour ∨
    s ∈ (createIndexesList schemas flavour).map SqlMigrationStep.createIndex ∨
    s ∈ (addForeignKeysList schemas flavour).map SqlMigrationStep.addForeignKey ∨
    s ∈ alterIndexSteps schemas flavour ∨
    s ∈ redefineIndexSteps schemas flavour := by
  simp only [calculateSteps, List.mem_append] at h
  tauto

/-- Whether a step is an `AlterIndex` step. -/
def isAlterIndexStep : SqlMigrationStep → Bool
  | SqlMigrationStep.alterIndex _ _ => true
  | _ => false

/-- Whether a step is a `RedefineIndex` step. -/
def isRedefineIndexStep : SqlMigrationStep → Bool
  | SqlMigrationStep.redefineIndex _ _ => true
  | _ => false

/-- **C8.** At most one of the `AlterIndex` and `RedefineIndex` phases is
non-empty: when the flavour supports in-place index renaming no
`RedefineIndex` step is emitted, and when it does not, no `AlterIndex` step
is emitted (every rename goes out as `RedefineIndex` instead). -/
theorem alter_index_redefine_index_exclusive (schemas : Pair SqlSchema)
    (flavour : SqlFlavour) :
    (flavour.canAlterIndex = true →
      (calculateSteps schemas flavour).all (fun s => !(isRedefineIndexStep s)) = true) ∧
    (flavour.canAlterIndex = false →
      (calculateSteps schemas flavour).all (fun s => !(isAlterIndexStep s)) = true) := by
  constructor
  · intro hcan
    rw [List.all_eq_true]
    intro s hs
    rcases mem_calculateSteps_cases hs with
      h | h | h | h | h | h | h | h | h | h | h | h | h
    all_goals first
      | (rw [List.mem_map] at h; obtain ⟨a, -, rfl⟩ := h; rfl)
      | (rw [mem_redefineTablesSteps schemas flavour h]; rfl)
      | (unfold alterIndexSteps at h; rw [List.mem_map] at h; obtain ⟨a, -, rfl⟩ := h; rfl)
      | (simp [redefineIndexSteps, hcan] at h)
  · intro hcan
    rw [List.all_eq_true]
    intro s hs
    rcases mem_calculateSteps_cases hs with
      h | h | h | h | h | h | h | h | h | h | h | h | h
    all_goals first
      | (rw [List.mem_map] at h; obtain ⟨a, -, rfl⟩ := h; rfl)
      | (rw [mem_redefineTablesSteps schemas flavour h]; rfl)
      | (unfold redefineIndexSteps at h; rw [List.mem_map] at h; obtain ⟨a, -, rfl⟩ := h; rfl)
      | (simp [alterIndexSteps, hcan] at h)

theorem foldl_insertIfAbsent_decomp {α : Type} [DecidableEq α] (xs : List α) :
    ∀ acc : List α, ∃ ys, xs.foldl insertIfAbsent acc = acc ++ ys ∧ ys.Sublist xs := by
  induction xs with
  | nil =>
      intro acc
      exact ⟨[], by simp, List.Sublist.refl []⟩
  | cons x t ih =>
      intro acc
      by_cases hx : x ∈ acc
      · obtain ⟨ys, h1, h2⟩ := ih acc
        refine ⟨ys, ?_, List.Sublist.cons x h2⟩
        rw [List.foldl_cons, show insertIfAbsent acc x = acc from if_pos hx, h1]
      · obtain ⟨ys, h1, h2⟩ := ih (acc ++ [x])
        refine ⟨x :: ys, ?_, List.Sublist.cons₂ x h2⟩
        rw [List.foldl_cons, show insertIfAbsent acc x = acc ++ [x] from if_neg hx, h1,
          List.append_assoc]
        rfl

theorem mem_withIdxFrom_le {α : Type} {y : Nat × α} :
    ∀ {n : Nat} {l : List α}, y ∈ withIdxFrom n l → n ≤ y.1 := by
  intro n l
  induction l generalizing n with
  | nil => intro h; simp [withIdxFrom] at h
  | cons a t ih =>
      intro h
      rw [withIdxFrom] at h
      rcases List.mem_cons.mp h with h | h
      · rw [h]
      · exact Nat.le_of_succ_le (ih h)

theorem withIdxFrom_pairwise {α : Type} (l : List α) :
    ∀ n : Nat, (withIdxFrom n l).Pairwise (fun a b => a.1 < b.1) := by
  induction l with
  | nil => intro n; exact List.Pairwise.nil
  | cons a t ih =>
      intro n
      rw [withIdxFrom]
      constructor
      · intro y hy
        exact Nat.lt_of_succ_le (mem_withIdxFrom_le hy)
      · exact ih (n + 1)

theorem withIdx_pairwise {α : Type} (l : List α) :
    (withIdx l).Pairwise (fun a b => a.1 < b.1) :=
  withIdxFrom_pairwise l 0

theorem filteredTables_pairwise (flavour : SqlFlavour) (schema : SqlSchema) :
    (filteredTables flavour schema).Pairwise (fun a b => a.1 < b.1) :=
  (withIdx_pairwise schema.tables).filter _

theorem droppedTables_pairwise (schemas : Pair SqlSchema) (flavour : SqlFlavour) :
    (droppedTables schemas flavour).Pairwise (fun a b => a.1 < b.1) :=
  (filteredTables_pairwise flavour schemas.previous).filter _

theorem tablePairs_pairwise (schemas : Pair SqlSchema) (flavour : SqlFlavour) :
    (tablePairs schemas flavour).Pairwise (fun a b => a.previous.1 < b.previous.1) := by
  unfold tablePairs
  rw [List.pairwise_filterMap]
  refine (filteredTables_pairwise flavour schemas.previous).imp ?_
  intro a b hab x hx y hy
  rcases Option.map_eq_some'.mp hx with ⟨nta, -, rfl⟩
  rcases Option.map_eq_some'.mp hy with ⟨ntb, -, rfl⟩
  exact hab

theorem mem_pairDropIndexEntry (flavour : SqlFlavour) (tp : Pair (Nat × Table))
    {x : DropIndexStep}
    (h : x ∈ (droppedIndexes tp).filterMap (fun idx =>
      if flavour.shouldSkipFkIndexes && indexCoversFk tp.previous.2 idx.2 then none
      else some { tableIndex := tp.previous.1, indexIndex := idx.1 })) :
    x.tableIndex = tp.previous.1 := by
  rcases List.mem_filterMap.mp h with ⟨idx, -, heq⟩
  split at heq
  · exact absurd heq (by simp)
  · cases Option.some.inj heq
    rfl

theorem pairDropIndexEntries_pairwise (schemas : Pair SqlSchema) (flavour : SqlFlavour) :
    (pairDropIndexEntries schemas flavour).Pairwise
      (fun a b => a.tableIndex ≤ b.tableIndex) := by
  unfold pairDropIndexEntries
  rw [List.pairwise_flatMap]
  constructor
  · intro tp htp
    exact pairwise_le_of_const (fun d => d.tableIndex) tp.previous.1 _
      (fun x hx => mem_pairDropIndexEntry flavour tp hx)
  · refine (tablePairs_pairwise schemas flavour).imp ?_
    intro a b hab x hx y hy
    rw [mem_pairDropIndexEntry flavour a hx, mem_pairDropIndexEntry flavour b hy]
    exact Nat.le_of_lt hab

theorem droppedTableDropIndexEntries_pairwise (schemas : Pair SqlSchema)
    (flavour : SqlFlavour) :
    (droppedTableDropIndexEntries schemas flavour).Pairwise
      (fun a b => a.tableIndex ≤ b.tableIndex) := by
  unfold droppedTableDropIndexEntries
  split
  · rw [List.pairwise_flatMap]
    constructor
    · intro dt hdt
      refine pairwise_le_of_const (fun d : DropIndexStep => d.tableIndex) dt.1 _ ?_
      intro x hx
      rcases List.mem_map.mp hx with ⟨ia, -, rfl⟩
      rfl
    · refine (droppedTables_pairwise schemas flavour).imp ?_
      intro a b hab x hx y hy
      rcases List.mem_map.mp hx with ⟨ia, -, rfl⟩
      rcases List.mem_map.mp hy with ⟨ib, -, rfl⟩
      exact Nat.le_of_lt hab
  · exact List.Pairwise.nil

/-- The `DropIndex` payloads of a step list. -/
def dropIndexStepsOf (steps : List SqlMigrationStep) : List DropIndexStep :=
  steps.filterMap (fun s =>
    match s with
    | SqlMigrationStep.dropIndex d => some d
    | _ => none)

theorem filterMap_none_eq_nil {α β : Type} (l : List α) :
    l.filterMap (fun _ => (none : Option β)) = [] := by
  induction l with
  | nil => rfl
  | cons a t ih => rw [List.filterMap_cons]; exact ih

/-- The `DropIndex` phase of the assembled step list is exactly the
`drop_indexes` result. -/
theorem dropIndexStepsOf_calculateSteps (schemas : Pair SqlSchema) (flavour : SqlFlavour) :
    dropIndexStepsOf (calculateSteps schemas flavour) = dropIndexesList schemas flavour := by
  unfold dropIndexStepsOf calculateSteps
  simp only [List.filterMap_append, List.filterMap_map]
  have hredef : (redefineTablesSteps schemas flavour).filterMap (fun s =>
      match s with
      | SqlMigrationStep.dropIndex d => some d
      | _ => none) = [] := by
    unfold redefineTablesSteps
    by_cases hc : (redefineTablesList schemas flavour).isEmpty <;> simp [hc]
  have halter : (alterIndexSteps schemas flavour).filterMap (fun s =>
      match s with
      | SqlMigrationStep.dropIndex d => some d
      | _ => none) = [] := by
    unfold alterIndexSteps
    rw [List.filterMap_map]
    exact filterMap_none_eq_nil _
  have hredefIdx : (redefineIndexSteps schemas flavour).filterMap (fun s =>
      match s with
      | SqlMigrationStep.dropIndex d => some d
      | _ => none) = [] := by
    unfold redefineIndexSteps
    rw [List.filterMap_map]
    exact filterMap_none_eq_nil _
  rw [hredef, halter, hredefIdx]
  simp [Function.comp_def, filterMap_none_eq_nil]

/-- **C2 (amended).** The step list is a pure function of the two snapshots
and the flavour in the insertion-ordered model of the hash set (in the
compiled program the relative order of `DropIndex` steps additionally
depends on the hash seed). Within the `DropIndex` phase, steps are *not* in
global snapshot positional order: the phase decomposes into the dropped
indexes discovered on matched table pairs — ascending in previous-table
position — followed by the indexes of dropped tables — ascending in table
position. -/
theorem drop_index_phase_grouped (schemas : Pair SqlSchema) (flavour : SqlFlavour) :
    ∃ l1 l2,
      dropIndexStepsOf (calculateSteps schemas flavour) = l1 ++ l2 ∧
      l1.Sublist (pairDropIndexEntries schemas flavour) ∧
      l2.Sublist (droppedTableDropIndexEntries schemas flavour) ∧
      l1.Pairwise (fun a b => a.tableIndex ≤ b.tableIndex) ∧
      l2.Pairwise (fun a b => a.tableIndex ≤ b.tableIndex) := by
  obtain ⟨l1, h1, hs1⟩ :=
    foldl_insertIfAbsent_decomp (pairDropIndexEntries schemas flavour) []
  obtain ⟨l2, h2, hs2⟩ :=
    foldl_insertIfAbsent_decomp (droppedTableDropIndexEntries schemas flavour) l1
  refine ⟨l1, l2, ?_, hs1, hs2, ?_, ?_⟩
  · rw [dropIndexStepsOf_calculateSteps]
    unfold dropIndexesList
    rw [List.foldl_append, h1, List.nil_append, h2]
  · exact (pairDropIndexEntries_pairwise schemas flavour).sublist hs1
  · exact (droppedTableDropIndexEntries_pairwise schemas flavour).sublist hs2

/-- Boolean positional comparison on `DropIndex` payloads: table position
first, then index position. -/
def dropIndexPosLe (a b : DropIndexStep) : Bool :=
  Nat.blt a.tableIndex b.tableIndex ||
    (a.tableIndex == b.tableIndex && Nat.ble a.indexIndex b.indexIndex)

/-- Whether a list of `DropIndex` payloads is in snapshot positional order. -/
def dropIndexPositional : List DropIndexStep → Bool
  | [] => true
  | [_] => true
  | a :: b :: t => dropIndexPosLe a b && dropIndexPositional (b :: t)

/-- Flavour used in the C2 counterexample: exact name matching, every table
pair slated for redefinition, dropped tables' indexes dropped explicitly. -/
def c2Flavour : SqlFlavour :=
  { tableNamesMatch := fun a b => a == b
    tableShouldBeIgnored := fun _ => false
    columnNamesMatch := fun a b => a == b
    canAlterIndex := true
    shouldSkipFkIndexes := false
    shouldDropIndexesFromDroppedTables := true
    shouldCreateIndexesFromCreatedTables := true
    shouldSkipIndexForNewTable := fun _ => false
    shouldPushForeignKeysFromCreatedTables := true
    shouldRecreateThePrimaryKeyOnColumnRecreate := false
    indexesShouldBeRecreatedAfterColumnDrop := false
    columnTypeChange := fun _ _ => ColumnTypeChange.riskyCast
    indexShouldBeRenamed := fun _ _ => false
    shouldRedefineTable := fun _ => true
    hasNativeEnums := false }

/-- C2 counterexample snapshots: previous has a dropped table `d` at
position 0 (with one index) and a surviving table `m` at position 1 whose
index is dropped; next has only `m`. -/
def c2Schemas : Pair SqlSchema :=
  { previous :=
      { tables :=
          [ { name := "d", columns := [],
              indexes := [{ name := some "ix_d", columns := ["c"], unique := false }],
              foreignKeys := [], primaryKey := none }
          , { name := "m", columns := [],
              indexes := [{ name := some "ix_m", columns := ["c"], unique := false }],
              foreignKeys := [], primaryKey := none } ]
        enums := [] }
    next :=
      { tables :=
          [ { name := "m", columns := [], indexes := [],
              foreignKeys := [], primaryKey := none } ]
        enums := [] } }

/-- **C2 (counterexample).** At the concrete input above, the `DropIndex`
phase is not in snapshot positional order: the step for table 1 (the matched
pair) precedes the step for table 0 (the dropped table). -/
theorem drop_index_not_positional_counterexample :
    dropIndexPositional (dropIndexStepsOf (calculateSteps c2Schemas c2Flavour)) = false := by
  decide

theorem mem_foldl_insertIfAbsent {α : Type} [DecidableEq α] (xs : List α) :
    ∀ (acc : List α) (x : α),
      x ∈ xs.foldl insertIfAbsent acc ↔ x ∈ acc ∨ x ∈ xs := by
  induction xs with
  | nil => intro acc x; simp
  | cons a t ih =>
      intro acc x
      rw [List.foldl_cons, ih]
      unfold insertIfAbsent
      by_cases ha : a ∈ acc
      · rw [if_pos ha]
        constructor
        · rintro (h | h)
          · exact Or.inl h
          · exact Or.inr (List.mem_cons_of_mem a h)
        · rintro (h | h)
          · exact Or.inl h
          · rcases List.mem_cons.mp h with rfl | h
            · exact Or.inl ha
            · exact Or.inr h
      · rw [if_neg ha]
        simp only [List.mem_append, List.mem_singleton, List.mem_cons]
        tauto

/-- **C4 (amended).** When the flavour requires dropped tables' indexes to be
explicitly dropped *and additionally* at least one matched table pair is
slated for redefinition (the code gates the dropped-table loop on a nonempty
redefine set), every index of every dropped table yields a `DropIndex` step
in the output. -/
theorem drop_index_for_dropped_table (schemas : Pair SqlSchema) (flavour : SqlFlavour)
    (hcap : flavour.shouldDropIndexesFromDroppedTables = true)
    (hredef : (tablesToRedefine schemas flavour).isEmpty = false)
    (ti : Nat) (t : Table) (ht : (ti, t) ∈ droppedTables schemas flavour)
    (ii : Nat) (idx : Index) (hidx : (ii, idx) ∈ withIdx t.indexes) :
    SqlMigrationStep.dropIndex { tableIndex := ti, indexIndex := ii } ∈
      calculateSteps schemas flavour := by
  have hentry : ({ tableIndex := ti, indexIndex := ii } : DropIndexStep) ∈
      droppedTableDropIndexEntries schemas flavour := by
    unfold droppedTableDropIndexEntries
    rw [hredef, hcap]
    simp only [Bool.not_false, Bool.and_self, if_pos]
    rw [List.mem_flatMap]
    exact ⟨(ti, t), ht, List.mem_map.mpr ⟨(ii, idx), hidx, rfl⟩⟩
  have hdrop : ({ tableIndex := ti, indexIndex := ii } : DropIndexStep) ∈
      dropIndexesList schemas flavour := by
    unfold dropIndexesList
    rw [mem_foldl_insertIfAbsent]
    exact Or.inr (List.mem_append.mpr (Or.inr hentry))
  have hblock : SqlMigrationStep.dropIndex { tableIndex := ti, indexIndex := ii } ∈
      (dropIndexesList schemas flavour).map SqlMigrationStep.dropIndex :=
    List.mem_map_of_mem SqlMigrationStep.dropIndex hdrop
  simp only [calculateSteps, List.mem_append]
  tauto

/-- Flavour used in the C4 counterexample: identical to the C2 flavour
except that no table pair is ever redefined. -/
def c4Flavour : SqlFlavour :=
  { c2Flavour with shouldRedefineTable := fun _ => false }

/-- C4 counterexample snapshots: the previous snapshot has a single table
`d` with one index; the next snapshot is empty, so `d` is dropped. -/
def c4Schemas : Pair SqlSchema :=
  { previous :=
      { tables :=
          [ { name := "d", columns := [],
              indexes := [{ name := some "ix_d", columns := ["c"], unique := false }],
              foreignKeys := [], primaryKey := none } ]
        enums := [] }
    next := { tables := [], enums := [] } }

/-- **C4 (counterexample).** The flavour capability alone does not suffice:
at this input the capability holds and table `d` (position 0) is dropped
with an index at position 0, yet no `DropIndex` step for it is emitted,
because no table pair is slated for redefinition. -/
theorem drop_index_for_dropped_table_counterexample :
    c4Flavour.shouldDropIndexesFromDroppedTables = true ∧
    (0, { name := "d", columns := [],
          indexes := [{ name := some "ix_d", columns := ["c"], unique := false }],
          foreignKeys := [], primaryKey := none }) ∈ droppedTables c4Schemas c4Flavour ∧
    SqlMigrationStep.dropIndex { tableIndex := 0, indexIndex := 0 } ∉
      calculateSteps c4Schemas c4Flavour := by
  refine ⟨rfl, by decide, by decide⟩

theorem drop_index_for_dropped_table_witness :
    SqlMigrationStep.dropIndex { tableIndex := 0, indexIndex := 0 } ∈
      calculateSteps c2Schemas c2Flavour :=
  drop_index_for_dropped_table c2Schemas c2Flavour rfl (by decide) 0
    { name := "d", columns := [],
      indexes := [{ name := some "ix_d", columns := ["c"], unique := false }],
      foreignKeys := [], primaryKey := none }
    (by decide) 0 { name := some "ix_d", columns := ["c"], unique := false } (by decide)

theorem mem_withIdxFrom_get? {α : Type} {l : List α} :
    ∀ {n i : Nat} {a : α}, (i, a) ∈ withIdxFrom n l → l.get? (i - n) = some a := by
  induction l with
  | nil => intro n i a h; simp [withIdxFrom] at h
  | cons hd tl ih =>
      intro n i a h
      rw [withIdxFrom] at h
      rcases List.mem_cons.mp h with h | h
      · rw [Prod.mk.injEq] at h
        obtain ⟨rfl, rfl⟩ := h
        simp [Nat.sub_self]
      · have hle : n + 1 ≤ i := mem_withIdxFrom_le h
        have htl := ih h
        have hin : i - n = (i - (n + 1)) + 1 := by omega
        rw [hin, List.get?_cons_succ]
        exact htl

theorem withIdx_get? {α : Type} {l : List α} {i : Nat} {a : α}
    (h : (i, a) ∈ withIdx l) : l.get? i = some a := by
  have := mem_withIdxFrom_get? h
  rwa [Nat.sub_zero] at this

theorem mem_droppedTables_withIdx {schemas : Pair SqlSchema} {flavour : SqlFlavour}
    {p : Nat × Table} (h : p ∈ droppedTables schemas flavour) :
    p ∈ withIdx schemas.previous.tables := by
  unfold droppedTables previousTables filteredTables at h
  exact List.mem_of_mem_filter (List.mem_of_mem_filter h)

theorem mem_tablePairs_previous {schemas : Pair SqlSchema} {flavour : SqlFlavour}
    {tp : Pair (Nat × Table)} (h : tp ∈ tablePairs schemas flavour) :
    tp.previous ∈ withIdx schemas.previous.tables := by
  unfold tablePairs at h
  rcases List.mem_filterMap.mp h with ⟨pt, hpt, heq⟩
  rcases Option.map_eq_some'.mp heq with ⟨nt, -, rfl⟩
  unfold previousTables filteredTables at hpt
  exact List.mem_of_mem_filter hpt

/-- **C9.** A `DropForeignKey` step is emitted only for a foreign key that
has a constraint name: the foreign key addressed by the step's previous
table position and foreign-key position carries exactly the step's
constraint name (foreign keys without a name are silently skipped both for
dropped tables and for matched pairs). -/
theorem drop_foreign_key_has_constraint_name (schemas : Pair SqlSchema)
    (flavour : SqlFlavour) :
    ∀ s ∈ calculateSteps schemas flavour, ∀ d, s = SqlMigrationStep.dropForeignKey d →
      ∃ t fk, schemas.previous.tables.get? d.tableIndex = some t ∧
        t.foreignKeys.get? d.foreignKeyIndex = some fk ∧
        fk.constraintName = some d.constraintName := by
  intro s hs d hd
  subst hd
  rcases mem_calculateSteps_cases hs with h | h | h | h | h | h | h | h | h | h | h | h | h
  · rw [List.mem_map] at h; obtain ⟨a, -, heq⟩ := h; exact absurd heq (by simp)
  · rw [List.mem_map] at h; obtain ⟨a, -, heq⟩ := h; exact absurd heq (by simp)
  · rw [List.mem_map] at h
    obtain ⟨d0, hd0, heq⟩ := h
    have hd0d : d0 = d := by injection heq
    subst hd0d
    unfold dropForeignKeysList at hd0
    rcases List.mem_append.mp hd0 with hA | hB
    · unfold droppedTablesForeignKeys at hA
      rcases List.mem_flatMap.mp hA with ⟨dt, hdt, h2⟩
      obtain ⟨ti, t⟩ := dt
      rcases List.mem_filterMap.mp h2 with ⟨fkw, hfkw, heq2⟩
      obtain ⟨fi, fk⟩ := fkw
      rcases Option.map_eq_some'.mp heq2 with ⟨nm, hnm, heqd⟩
      refine ⟨t, fk, ?_, ?_, ?_⟩
      · rw [← heqd]
        exact withIdx_get? (mem_droppedTables_withIdx hdt)
      · rw [← heqd]
        exact withIdx_get? hfkw
      · rw [← heqd]
        exact hnm
    · unfold pairDroppedForeignKeySteps at hB
      rcases List.mem_flatMap.mp hB with ⟨tp, htp, h2⟩
      rcases List.mem_filterMap.mp h2 with ⟨fkw, hfkw, heq2⟩
      obtain ⟨fi, fk⟩ := fkw
      rcases Option.map_eq_some'.mp heq2 with ⟨nm, hnm, heqd⟩
      have hfk : (fi, fk) ∈ withIdx tp.previous.2.foreignKeys := by
        unfold droppedForeignKeys at hfkw
        exact List.mem_of_mem_filter hfkw
      refine ⟨tp.previous.2, fk, ?_, ?_, ?_⟩
      · rw [← heqd]
        exact withIdx_get? (mem_tablePairs_previous htp)
      · rw [← heqd]
        exact withIdx_get? hfk
      · rw [← heqd]
        exact hnm
  · rw [List.mem_map] at h; obtain ⟨a, -, heq⟩ := h; exact absurd heq (by simp)
  · rw [List.mem_map] at h; obtain ⟨a, -, heq⟩ := h; exact absurd heq (by simp)
  · rw [List.mem_map] at h; obtain ⟨a, -, heq⟩ := h; exact absurd heq (by simp)
  · rw [List.mem_map] at h; obtain ⟨a, -, heq⟩ := h; exact absurd heq (by simp)
  · rw [List.mem_map] at h; obtain ⟨a, -, heq⟩ := h; exact absurd heq (by simp)
  · have := mem_redefineTablesSteps schemas flavour h
    exact absurd this (by simp)
  · rw [List.mem_map] at h; obtain ⟨a, -, heq⟩ := h; exact absurd heq (by simp)
  · rw [List.mem_map] at h; obtain ⟨a, -, heq⟩ := h; exact absurd heq (by simp)
  · unfold alterIndexSteps at h
    rw [List.mem_map] at h; obtain ⟨a, -, heq⟩ := h; exact absurd heq (by simp)
  · unfold redefineIndexSteps at h
    rw [List.mem_map] at h; obtain ⟨a, -, heq⟩ := h; exact absurd heq (by simp)

/-- C9 witness snapshots: previous has table `a` (position 0) with a named
foreign key to table `b`, and table `b`; next keeps only `b`, so `a` is a
dropped table whose foreign key produces a `DropForeignKey` step. -/
def c9Schemas : Pair SqlSchema :=
  { previous :=
      { tables :=
          [ { name := "a", columns := [], indexes := [],
              foreignKeys :=
                [ { constraintName := some "fk1", constrainedColumns := ["x"],
                    referencedColumns := ["id"], referencedTable := "b" } ]
              primaryKey := none }
          , { name := "b", columns := [], indexes := [],
              foreignKeys := [], primaryKey := none } ]
        enums := [] }
    next :=
      { tables :=
          [ { name := "b", columns := [], indexes := [],
              foreignKeys := [], primaryKey := none } ]
        enums := [] } }

theorem drop_foreign_key_has_constraint_name_witness :
    ∃ t fk, c9Schemas.previous.tables.get? 0 = some t ∧
      t.foreignKeys.get? 0 = some fk ∧
      fk.constraintName = some "fk1" :=
  drop_foreign_key_has_constraint_name c9Schemas c2Flavour
    (SqlMigrationStep.dropForeignKey
      { tableIndex := 0, foreignKeyIndex := 0, table := "a", constraintName := "fk1" })
    (by decide)
    { tableIndex := 0, foreignKeyIndex := 0, table := "a", constraintName := "fk1" }
    rfl

/-- The rank of a change inside an `AlterTable` step, following the fixed
emission order: drop primary key, dropped columns, added columns,
altered/recreated columns, add primary key. -/
def changeRank : TableChange → Nat
  | TableChange.dropPrimaryKey => 0
  | TableChange.dropColumn _ => 1
  | TableChange.addColumn _ => 2
  | TableChange.alterColumn _ _ _ => 3
  | TableChange.dropAndRecreateColumn _ _ => 3
  | TableChange.addPrimaryKey _ => 4

theorem fromPslDropPrimaryKey_eq_some {tp : Pair (Nat × Table)} {x : TableChange}
    (h : fromPslDropPrimaryKey tp = some x) : x = TableChange.dropPrimaryKey := by
  unfold fromPslDropPrimaryKey at h
  rcases Option.map_eq_some'.mp h with ⟨pk, -, hx⟩
  exact hx.symm

theorem dropPrimaryKeyChange_eq_some {flavour : SqlFlavour} {tp : Pair (Nat × Table)}
    {x : TableChange} (h : dropPrimaryKeyChange flavour tp = some x) :
    x = TableChange.dropPrimaryKey := by
  unfold dropPrimaryKeyChange at h
  by_cases hrec : flavour.shouldRecreateThePrimaryKeyOnColumnRecreate = true
  · rw [if_pos hrec] at h
    cases hd : fromPslDropPrimaryKey tp with
    | some c =>
        rw [hd] at h
        dsimp only at h
        rw [← Option.some.inj h]
        exact fromPslDropPrimaryKey_eq_some hd
    | none =>
        rw [hd] at h
        dsimp only at h
        split at h
        · exact (Option.some.inj h).symm
        · exact absurd h (by simp)
  · rw [if_neg hrec] at h
    exact fromPslDropPrimaryKey_eq_some h

theorem fromPslAddPrimaryKey_eq_some {tp : Pair (Nat × Table)} {x : TableChange}
    (h : fromPslAddPrimaryKey tp = some x) :
    ∃ cols, x = TableChange.addPrimaryKey cols ∧ cols ≠ [] := by
  unfold fromPslAddPrimaryKey at h
  rcases Option.bind_eq_some.mp h with ⟨pk, -, hif⟩
  split at hif
  · exact absurd hif (by simp)
  · rename_i hne
    refine ⟨pk, (Option.some.inj hif).symm, ?_⟩
    intro hnil
    subst hnil
    simp at hne

theorem pkRecreateForced_pk_nonempty {flavour : SqlFlavour} {tp : Pair (Nat × Table)}
    (h : pkRecreateForced flavour tp = true) : primaryKeyColumns tp.previous.2 ≠ [] := by
  unfold pkRecreateForced at h
  rcases List.any_eq_true.mp h with ⟨tc, -, htc⟩
  cases tc with
  | dropAndRecreateColumn columnIndex changes =>
      have hmemb : columnIndex.previous ∈ tp.previous.2.primaryKey.getD [] :=
        List.mem_of_elem_eq_true htc
      exact List.ne_nil_of_mem hmemb
  | addColumn i => exact absurd htc (by simp)
  | dropColumn i => exact absurd htc (by simp)
  | alterColumn a b c => exact absurd htc (by simp)
  | dropPrimaryKey => exact absurd htc (by simp)
  | addPrimaryKey cols => exact absurd htc (by simp)

theorem addPrimaryKeyChange_eq_some {flavour : SqlFlavour} {tp : Pair (Nat × Table)}
    {x : TableChange} (h : addPrimaryKeyChange flavour tp = some x) :
    ∃ cols, x = TableChange.addPrimaryKey cols ∧ cols ≠ [] := by
  unfold addPrimaryKeyChange at h
  by_cases hrec : flavour.shouldRecreateThePrimaryKeyOnColumnRecreate = true
  · rw [if_pos hrec] at h
    cases hfp : fromPslAddPrimaryKey tp with
    | some c =>
        rw [hfp] at h
        dsimp only at h
        rw [← Option.some.inj h]
        exact fromPslAddPrimaryKey_eq_some hfp
    | none =>
        rw [hfp] at h
        dsimp only at h
        split at h
        · rename_i hany
          exact ⟨primaryKeyColumns tp.previous.2, (Option.some.inj h).symm,
            pkRecreateForced_pk_nonempty hany⟩
        · exact absurd h (by simp)
  · rw [if_neg hrec] at h
    exact fromPslAddPrimaryKey_eq_some h

theorem mem_alterColumns_rank {flavour : SqlFlavour} {tp : Pair (Nat × Table)}
    {x : TableChange} (h : x ∈ alterColumns flavour tp) : changeRank x = 3 := by
  unfold alterColumns at h
  rcases List.mem_filterMap.mp h with ⟨p, -, heq⟩
  simp only [alterColumnChange] at heq
  split at heq
  · exact absurd heq (by simp)
  · split at heq
    · cases Option.some.inj heq; rfl
    · cases Option.some.inj heq; rfl
    · cases Option.some.inj heq; rfl
    · cases Option.some.inj heq; rfl

theorem mem_dropColumnChanges_rank {flavour : SqlFlavour} {tp : Pair (Nat × Table)}
    {x : TableChange} (h : x ∈ dropColumnChanges flavour tp) : changeRank x = 1 := by
  rcases List.mem_map.mp h with ⟨c, -, rfl⟩
  rfl

theorem mem_addColumnChanges_rank {flavour : SqlFlavour} {tp : Pair (Nat × Table)}
    {x : TableChange} (h : x ∈ addColumnChanges flavour tp) : changeRank x = 2 := by
  rcases List.mem_map.mp h with ⟨c, -, rfl⟩
  rfl

theorem mem_dropPrimaryKeyChange_rank {flavour : SqlFlavour} {tp : Pair (Nat × Table)}
    {x : TableChange} (h : x ∈ (dropPrimaryKeyChange flavour tp).toList) :
    changeRank x = 0 := by
  rw [Option.mem_toList, Option.mem_def] at h
  rw [dropPrimaryKeyChange_eq_some h]
  rfl

theorem mem_addPrimaryKeyChange_rank {flavour : SqlFlavour} {tp : Pair (Nat × Table)}
    {x : TableChange} (h : x ∈ (addPrimaryKeyChange flavour tp).toList) :
    changeRank x = 4 := by
  rw [Option.mem_toList, Option.mem_def] at h
  rcases addPrimaryKeyChange_eq_some h with ⟨cols, rfl, -⟩
  rfl

theorem alterTableChanges_pairwise (flavour : SqlFlavour) (tp : Pair (Nat × Table)) :
    (alterTableChanges flavour tp).Pairwise
      (fun x y => changeRank x ≤ changeRank y) := by
  have p4 := pairwise_le_of_const changeRank 4 ((addPrimaryKeyChange flavour tp).toList)
    (fun x hx => mem_addPrimaryKeyChange_rank hx)
  have b4 : ∀ y ∈ (addPrimaryKeyChange flavour tp).toList, 4 ≤ changeRank y :=
    fun y hy => le_of_eq (mem_addPrimaryKeyChange_rank hy).symm
  have s3 := pairwise_le_chain_step changeRank 3 (alterColumns flavour tp) _
    (fun x hx => mem_alterColumns_rank hx)
    (fun y hy => le_trans (by omega) (b4 y hy)) p4
  have s2 := pairwise_le_chain_step changeRank 2 (addColumnChanges flavour tp) _
    (fun x hx => mem_addColumnChanges_rank hx)
    (fun y hy => le_trans (by omega) (s3.2 y hy)) s3.1
  have s1 := pairwise_le_chain_step changeRank 1 (dropColumnChanges flavour tp) _
    (fun x hx => mem_dropColumnChanges_rank hx)
    (fun y hy => le_trans (by omega) (s2.2 y hy)) s2.1
  have s0 := pairwise_le_chain_step changeRank 0 ((dropPrimaryKeyChange flavour tp).toList) _
    (fun x hx => mem_dropPrimaryKeyChange_rank hx)
    (fun y hy => le_trans (by omega) (s1.2 y hy)) s1.1
  have heq : alterTableChanges flavour tp =
      (dropPrimaryKeyChange flavour tp).toList ++
        (dropColumnChanges flavour tp ++
          (addColumnChanges flavour tp ++
            (alterColumns flavour tp ++ (addPrimaryKeyChange flavour tp).toList))) := by
    simp [alterTableChanges, List.append_assoc]
  rw [heq]
  exact s0.1

theorem alterTable_mem_calculateSteps {schemas : Pair SqlSchema} {flavour : SqlFlavour}
    {a : AlterTableStep}
    (h : SqlMigrationStep.alterTable a ∈ calculateSteps schemas flavour) :
    a ∈ alterTables schemas flavour := by
  rcases mem_calculateSteps_cases h with h | h | h | h | h | h | h | h | h | h | h | h | h
  · rw [List.mem_map] at h; obtain ⟨b, -, heq⟩ := h; exact absurd heq (by simp)
  · rw [List.mem_map] at h; obtain ⟨b, -, heq⟩ := h; exact absurd heq (by simp)
  · rw [List.mem_map] at h; obtain ⟨b, -, heq⟩ := h; exact absurd heq (by simp)
  · rw [List.mem_map] at h; obtain ⟨b, -, heq⟩ := h; exact absurd heq (by simp)
  · rw [List.mem_map] at h
    obtain ⟨b, hb, heq⟩ := h
    have hba : b = a := by injection heq
    subst hba
    exact hb
  · rw [List.mem_map] at h; obtain ⟨b, -, heq⟩ := h; exact absurd heq (by simp)
  · rw [List.mem_map] at h; obtain ⟨b, -, heq⟩ := h; exact absurd heq (by simp)
  · rw [List.mem_map] at h; obtain ⟨b, -, heq⟩ := h; exact absurd heq (by simp)
  · have := mem_redefineTablesSteps schemas flavour h
    exact absurd this (by simp)
  · rw [List.mem_map] at h; obtain ⟨b, -, heq⟩ := h; exact absurd heq (by simp)
  · rw [List.mem_map] at h; obtain ⟨b, -, heq⟩ := h; exact absurd heq (by simp)
  · unfold alterIndexSteps at h
    rw [List.mem_map] at h; obtain ⟨b, -, heq⟩ := h; exact absurd heq (by simp)
  · unfold redefineIndexSteps at h
    rw [List.mem_map] at h; obtain ⟨b, -, heq⟩ := h; exact absurd heq (by simp)

theorem mem_alterTables_changes {schemas : Pair SqlSchema} {flavour : SqlFlavour}
    {a : AlterTableStep} (h : a ∈ alterTables schemas flavour) :
    ∃ tp, tp ∈ tablePairs schemas flavour ∧ a.changes = alterTableChanges flavour tp := by
  unfold alterTables at h
  rcases List.mem_filterMap.mp h with ⟨tp, htp, heq⟩
  dsimp only at heq
  split at heq
  · exact absurd heq (by simp)
  · obtain rfl := Option.some.inj heq
    exact ⟨tp, htp, rfl⟩

/-- **C5.** Within every `AlterTable` step of the output the changes appear
in the fixed order `DropPrimaryKey`, dropped columns, added columns,
altered/drop-and-recreated columns, `AddPrimaryKey` (ranks never decrease);
and under a flavour requiring primary-key recreation on destructive column
recreation, a `DropAndRecreateColumn` touching a primary-key column forces
both a `DropPrimaryKey` and an `AddPrimaryKey` change into the table's
change list, hence — by the rank ordering — the three appear in the relative
order `DropPrimaryKey`, `DropAndRecreateColumn`, `AddPrimaryKey`. -/
theorem alter_table_change_order (schemas : Pair SqlSchema) (flavour : SqlFlavour) :
    (∀ s ∈ calculateSteps schemas flavour, ∀ a, s = SqlMigrationStep.alterTable a →
      a.changes.Pairwise (fun x y => changeRank x ≤ changeRank y)) ∧
    (∀ tp ∈ tablePairs schemas flavour,
      flavour.shouldRecreateThePrimaryKeyOnColumnRecreate = true →
      ∀ ci cc, TableChange.dropAndRecreateColumn ci cc ∈ alterColumns flavour tp →
        isPartOfPrimaryKey tp.previous.2 ci.previous = true →
        TableChange.dropPrimaryKey ∈ alterTableChanges flavour tp ∧
        ∃ cols, TableChange.addPrimaryKey cols ∈ alterTableChanges flavour tp) := by
  constructor
  · intro s hs a heq
    subst heq
    obtain ⟨tp, -, hch⟩ := mem_alterTables_changes (alterTable_mem_calculateSteps hs)
    rw [hch]
    exact alterTableChanges_pairwise flavour tp
  · intro tp htp hrec ci cc hmem hpk
    have hforced : pkRecreateForced flavour tp = true := by
      unfold pkRecreateForced
      exact List.any_eq_true.mpr ⟨TableChange.dropAndRecreateColumn ci cc, hmem, hpk⟩
    have hdpk : dropPrimaryKeyChange flavour tp = some TableChange.dropPrimaryKey := by
      unfold dropPrimaryKeyChange
      rw [if_pos hrec]
      cases hd : fromPslDropPrimaryKey tp with
      | some c =>
          dsimp only
          rw [fromPslDropPrimaryKey_eq_some hd]
      | none =>
          dsimp only
          rw [hforced]
          simp
    have hapk : ∃ cols, addPrimaryKeyChange flavour tp =
        some (TableChange.addPrimaryKey cols) := by
      unfold addPrimaryKeyChange
      rw [if_pos hrec]
      cases hfp : fromPslAddPrimaryKey tp with
      | some c =>
          dsimp only
          rcases fromPslAddPrimaryKey_eq_some hfp with ⟨cols, rfl, -⟩
          exact ⟨cols, rfl⟩
      | none =>
          dsimp only
          rw [hforced]
          exact ⟨primaryKeyColumns tp.previous.2, by simp⟩
    constructor
    · unfold alterTableChanges
      rw [hdpk]
      simp
    · obtain ⟨cols, hc⟩ := hapk
      refine ⟨cols, ?_⟩
      unfold alterTableChanges
      rw [hc]
      simp

/-- Flavour for the C5 witness: primary keys are recreated on destructive
column recreation, and a uuid column turned into an integer column is
classified `NotCastable`. -/
def w5Flavour : SqlFlavour :=
  { c2Flavour with
    shouldRecreateThePrimaryKeyOnColumnRecreate := true
    shouldRedefineTable := fun _ => false
    columnTypeChange := fun p n =>
      if p.family == ColumnTypeFamily.uuid && n.family == ColumnTypeFamily.int then
        ColumnTypeChange.notCastable
      else ColumnTypeChange.safeCast }

/-- Previous `Order` table of the C5 witness: `id uuid`, primary key on it. -/
def w5Prev : Table :=
  { name := "Order"
    columns := [{ name := "id", family := ColumnTypeFamily.uuid,
                  arity := ColumnArity.required, nativeType := none, defaultValue := none }]
    indexes := [], foreignKeys := [], primaryKey := some [0] }

/-- Next `Order` table of the C5 witness: `id int`, primary key on it. -/
def w5Next : Table :=
  { name := "Order"
    columns := [{ name := "id", family := ColumnTypeFamily.int,
                  arity := ColumnArity.required, nativeType := none, defaultValue := none }]
    indexes := [], foreignKeys := [], primaryKey := some [0] }

/-- C5 witness snapshots. -/
def w5Schemas : Pair SqlSchema :=
  { previous := { tables := [w5Prev], enums := [] }
    next := { tables := [w5Next], enums := [] } }

/-- C5 witness table pair. -/
def w5tp : Pair (Nat × Table) :=
  { previous := (0, w5Prev), next := (0, w5Next) }

theorem alter_table_change_order_witness :
    TableChange.dropPrimaryKey ∈ alterTableChanges w5Flavour w5tp ∧
    ∃ cols, TableChange.addPrimaryKey cols ∈ alterTableChanges w5Flavour w5tp :=
  (alter_table_change_order w5Schemas w5Flavour).2 w5tp (by decide) rfl
    { previous := 0, next := 0 }
    { renamed := false, arityChanged := false, defaultChanged := false, typeChanged := true }
    (by decide) (by decide)

/-- **C10.** No `AddPrimaryKey` change with an empty column list is ever
emitted: every `AddPrimaryKey` change inside an `AlterTable` step of the
output carries a nonempty column list. -/
theorem add_primary_key_nonempty (schemas : Pair SqlSchema) (flavour : SqlFlavour) :
    ∀ s ∈ calculateSteps schemas flavour, ∀ a, s = SqlMigrationStep.alterTable a →
      ∀ ch ∈ a.changes, ∀ cols, ch = TableChange.addPrimaryKey cols → cols ≠ [] := by
  intro s hs a heq ch hch cols hcols
  subst heq
  subst hcols
  obtain ⟨tp, -, hach⟩ := mem_alterTables_changes (alterTable_mem_calculateSteps hs)
  rw [hach] at hch
  unfold alterTableChanges at hch
  rcases List.mem_append.mp hch with hch | htl
  rcases List.mem_append.mp hch with hch | hac
  rcases List.mem_append.mp hch with hch | had
  rcases List.mem_append.mp hch with hhd | hdc
  · have := mem_dropPrimaryKeyChange_rank hhd
    simp [changeRank] at this
  · have := mem_dropColumnChanges_rank hdc
    simp [changeRank] at this
  · have := mem_addColumnChanges_rank had
    simp [changeRank] at this
  · have := mem_alterColumns_rank hac
    simp [changeRank] at this
  · rw [Option.mem_toList, Option.mem_def] at htl
    rcases addPrimaryKeyChange_eq_some htl with ⟨cols2, heq2, hne⟩
    have : cols = cols2 := by injection heq2
    rwa [this]

theorem add_primary_key_nonempty_witness : ([0] : List Nat) ≠ [] :=
  add_primary_key_nonempty w5Schemas w5Flavour
    (SqlMigrationStep.alterTable
      { tableIndex := { previous := 0, next := 0 }
        changes :=
          [ TableChange.dropPrimaryKey
          , TableChange.dropAndRecreateColumn { previous := 0, next := 0 }
              { renamed := false, arityChanged := false, defaultChanged := false,
                typeChanged := true }
          , TableChange.addPrimaryKey [0] ] })
    (by decide)
    { tableIndex := { previous := 0, next := 0 }
      changes :=
        [ TableChange.dropPrimaryKey
        , TableChange.dropAndRecreateColumn { previous := 0, next := 0 }
            { renamed := false, arityChanged := false, defaultChanged := false,
              typeChanged := true }
        , TableChange.addPrimaryKey [0] ] }
    rfl
    (TableChange.addPrimaryKey [0])
    (by decide)
    [0]
    rfl

theorem withIdx_fst_inj {α : Type} {l : List α} {i : Nat} {a b : α}
    (ha : (i, a) ∈ withIdx l) (hb : (i, b) ∈ withIdx l) : a = b := by
  have h1 := withIdx_get? ha
  have h2 := withIdx_get? hb
  rw [h1] at h2
  exact Option.some.inj h2

theorem columnPairs_prev_inj {flavour : SqlFlavour} {tp : Pair (Nat × Table)}
    {p q : Pair (Nat × Column)} (hp : p ∈ columnPairs flavour tp)
    (hq : q ∈ columnPairs flavour tp) (hi : p.previous.1 = q.previous.1) : p = q := by
  unfold columnPairs at hp hq
  rcases List.mem_filterMap.mp hp with ⟨pc, hpc, heqp⟩
  rcases List.mem_filterMap.mp hq with ⟨qc, hqc, heqq⟩
  rcases Option.map_eq_some'.mp heqp with ⟨nt1, hfind1, rfl⟩
  rcases Option.map_eq_some'.mp heqq with ⟨nt2, hfind2, rfl⟩
  obtain ⟨i1, c1⟩ := pc
  obtain ⟨i2, c2⟩ := qc
  have hii : i1 = i2 := hi
  subst hii
  have hcc : c1 = c2 := withIdx_fst_inj hpc hqc
  subst hcc
  rw [hfind1] at hfind2
  rw [Option.some.inj hfind2]

theorem alterColumnChange_alterColumn_shape {flavour : SqlFlavour}
    {q : Pair (Nat × Column)} {ci : Pair Nat} {cc : ColumnChanges}
    {tc0 : Option ColumnTypeChange}
    (h : alterColumnChange flavour q = some (TableChange.alterColumn ci cc tc0)) :
    ci = { previous := q.previous.1, next := q.next.1 } ∧
    (columnAllChanges flavour q.previous.2 q.next.2).2 ≠
      some ColumnTypeChange.notCastable := by
  unfold alterColumnChange at h
  split at h
  · exact absurd h (by simp)
  · split at h
    · exact absurd (Option.some.inj h) (by simp)
    · rename_i htc
      have := Option.some.inj h
      injection this with h1 h2 h3
      exact ⟨h1.symm, by rw [htc]; simp⟩
    · rename_i htc
      have := Option.some.inj h
      injection this with h1 h2 h3
      exact ⟨h1.symm, by rw [htc]; simp⟩
    · rename_i htc
      have := Option.some.inj h
      injection this with h1 h2 h3
      exact ⟨h1.symm, by rw [htc]; simp⟩

/-- **C6.** For every matched column pair that differs in some field: when
the flavour classifies the type change as `NotCastable` the emitted change
is `DropAndRecreateColumn` — and no `AlterColumn` change for that column is
emitted — while in every other case (`SafeCast`, `RiskyCast`, or no type
change) the emitted change is `AlterColumn` carrying exactly the
classification as its type-change tag. -/
theorem not_castable_drop_and_recreate (flavour : SqlFlavour) (tp : Pair (Nat × Table)) :
    ∀ p ∈ columnPairs flavour tp,
      differsInSomething (columnAllChanges flavour p.previous.2 p.next.2).1 = true →
      (((columnAllChanges flavour p.previous.2 p.next.2).2 =
          some ColumnTypeChange.notCastable →
        TableChange.dropAndRecreateColumn { previous := p.previous.1, next := p.next.1 }
            (columnAllChanges flavour p.previous.2 p.next.2).1 ∈
          alterColumns flavour tp ∧
        ∀ ci cc tc0, TableChange.alterColumn ci cc tc0 ∈ alterColumns flavour tp →
          ci.previous ≠ p.previous.1) ∧
      ((columnAllChanges flavour p.previous.2 p.next.2).2 ≠
          some ColumnTypeChange.notCastable →
        TableChange.alterColumn { previous := p.previous.1, next := p.next.1 }
          (columnAllChanges flavour p.previous.2 p.next.2).1
          (columnAllChanges flavour p.previous.2 p.next.2).2 ∈
          alterColumns flavour tp)) := by
  intro p hp hdiff
  constructor
  · intro hnc
    constructor
    · refine List.mem_filterMap.mpr ⟨p, hp, ?_⟩
      unfold alterColumnChange
      rw [if_neg (by simp [hdiff]), hnc]
    · intro ci cc tc0 hmem heqi
      rcases List.mem_filterMap.mp hmem with ⟨q, hq, hq2⟩
      obtain ⟨hci, hqnc⟩ := alterColumnChange_alterColumn_shape hq2
      have hqi : q.previous.1 = p.previous.1 := by rw [← heqi, hci]
      have hqp : q = p := columnPairs_prev_inj hq hp hqi
      rw [hqp] at hqnc
      exact hqnc hnc
  · intro hnc
    refine List.mem_filterMap.mpr ⟨p, hp, ?_⟩
    unfold alterColumnChange
    rw [if_neg (by simp [hdiff])]
    cases htc : (columnAllChanges flavour p.previous.2 p.next.2).2 with
    | none => rfl
    | some tc =>
        cases tc with
        | safeCast => rfl
        | riskyCast => rfl
        | notCastable => exact absurd htc hnc

/-- C6 witness column pair: the `id` column of the C5 witness tables. -/
def w6p : Pair (Nat × Column) :=
  { previous :=
      (0,
        { name := "id"
          family := ColumnTypeFamily.uuid
          arity := ColumnArity.required
          nativeType := none
          defaultValue := none })
    next :=
      (0,
        { name := "id"
          family := ColumnTypeFamily.int
          arity := ColumnArity.required
          nativeType := none
          defaultValue := none }) }

theorem not_castable_drop_and_recreate_witness :
    TableChange.dropAndRecreateColumn { previous := 0, next := 0 }
        (columnAllChanges w5Flavour w6p.previous.2 w6p.next.2).1 ∈
      alterColumns w5Flavour w5tp ∧
    ∀ ci cc tc0, TableChange.alterColumn ci cc tc0 ∈ alterColumns w5Flavour w5tp →
      ci.previous ≠ 0 :=
  (not_castable_drop_and_recreate w5Flavour w5tp w6p (by decide) (by decide)).1 (by decide)

theorem find?_eq_of_unique {α : Type} (p : α → Bool) (l : List α) (x : α)
    (hx : x ∈ l) (hpx : p x = true) (huniq : ∀ y ∈ l, p y = true → y = x) :
    l.find? p = some x := by
  induction l with
  | nil => cases hx
  | cons a t ih =>
      by_cases hpa : p a = true
      · rw [List.find?_cons_of_pos t hpa]
        rw [huniq a (List.mem_cons_self a t) hpa]
      · rw [List.find?_cons_of_neg t (by simp [hpa])]
        rcases List.mem_cons.mp hx with rfl | hx2
        · exact absurd hpx hpa
        · exact ih hx2 (fun y hy hpy => huniq y (List.mem_cons_of_mem a hy) hpy)

theorem filterMap_congr_some {α β : Type} {f : α → Option β} {g : α → β} :
    ∀ {l : List α}, (∀ x ∈ l, f x = some (g x)) → l.filterMap f = l.map g := by
  intro l
  induction l with
  | nil => intro _; rfl
  | cons a t ih =>
      intro h
      rw [List.filterMap_cons, h a (List.mem_cons_self a t),
        ih (fun x hx => h x (List.mem_cons_of_mem a hx)), List.map_cons]

theorem filterMap_eq_nil_of_forall {α β : Type} {f : α → Option β} {l : List α}
    (h : ∀ x ∈ l, f x = none) : l.filterMap f = [] :=
  List.filterMap_eq_nil_iff.mpr h

theorem flatMap_eq_nil_of_forall {α β : Type} {f : α → List β} {l : List α}
    (h : ∀ x ∈ l, f x = []) : l.flatMap f = [] :=
  List.flatMap_eq_nil_iff.mpr h

theorem mem_zip_self {α : Type} {l : List α} {c : α × α} (h : c ∈ l.zip l) :
    c.1 = c.2 := by
  induction l with
  | nil => cases h
  | cons a t ih =>
      rw [List.zip_cons_cons] at h
      rcases List.mem_cons.mp h with rfl | h2
      · rfl
      · exact ih h2

theorem mem_withIdx_snd {α : Type} {l : List α} {p : Nat × α} (h : p ∈ withIdx l) :
    p.2 ∈ l := by
  obtain ⟨i, a⟩ := p
  exact List.get?_mem (withIdx_get? h)

theorem mem_filteredTables_table {flavour : SqlFlavour} {schema : SqlSchema}
    {p : Nat × Table} (h : p ∈ filteredTables flavour schema) : p.2 ∈ schema.tables :=
  mem_withIdx_snd (List.mem_of_mem_filter h)

theorem indexesMatch_self (i : Index) : indexesMatch i i = true := by
  simp [indexesMatch]

theorem enumsMatch_self (e : Enum) : enumsMatch e e = true := by
  simp [enumsMatch]

theorem familiesMatch_self (f : ColumnTypeFamily) :
    (match f, f with
      | ColumnTypeFamily.uuid, ColumnTypeFamily.string => true
      | ColumnTypeFamily.string, ColumnTypeFamily.uuid => true
      | x, y => x == y) = true := by
  cases f <;> simp

theorem foreignKeysMatch_self (flavour : SqlFlavour) (t : Table) (fk : ForeignKey)
    (hreft : flavour.tableNamesMatch fk.referencedTable fk.referencedTable = true) :
    foreignKeysMatch flavour t t fk fk = true := by
  unfold foreignKeysMatch
  rw [hreft]
  simp only [beq_self_eq_true, Bool.true_and, Bool.and_true, Bool.and_eq_true,
    List.all_eq_true]
  refine ⟨?_, ?_⟩
  · intro cc hcc
    have hce := mem_zip_self hcc
    rw [← hce]
    exact ⟨by simp, familiesMatch_self cc.1.family⟩
  · intro rc hrc
    have := mem_zip_self hrc
    simp [this]

theorem columnAllChanges_self (flavour : SqlFlavour) (c : Column) :
    columnAllChanges flavour c c =
      ({ renamed := false, arityChanged := false, defaultChanged := false,
         typeChanged := false }, none) := by
  unfold columnAllChanges
  simp

theorem alterColumnChange_self (flavour : SqlFlavour) (i j : Nat) (c : Column) :
    alterColumnChange flavour { previous := (i, c), next := (j, c) } = none := by
  unfold alterColumnChange
  rw [columnAllChanges_self]
  simp [differsInSomething]

/-- Side conditions under which diffing a snapshot against itself is the
identity: the flavour's name-equivalence predicates are reflexive on the
names occurring in the snapshot, no two distinct tables / columns / indexes
/ enums of the snapshot are identified by them, the index-rename predicate
is false on identical indexes, and an empty change list never triggers a
table redefinition. -/
def selfDiffSafe (schema : SqlSchema) (flavour : SqlFlavour) : Prop :=
  (∀ t ∈ schema.tables, flavour.tableNamesMatch t.name t.name = true) ∧
  (∀ p ∈ withIdx schema.tables, ∀ q ∈ withIdx schema.tables,
    flavour.tableNamesMatch p.2.name q.2.name = true → p.1 = q.1) ∧
  (∀ t ∈ schema.tables, ∀ fk ∈ t.foreignKeys,
    flavour.tableNamesMatch fk.referencedTable fk.referencedTable = true) ∧
  (∀ t ∈ schema.tables, ∀ c ∈ t.columns,
    flavour.columnNamesMatch c.name c.name = true) ∧
  (∀ t ∈ schema.tables, ∀ p ∈ withIdx t.columns, ∀ q ∈ withIdx t.columns,
    flavour.columnNamesMatch p.2.name q.2.name = true → p.1 = q.1) ∧
  (∀ t ∈ schema.tables, ∀ p ∈ withIdx t.indexes, ∀ q ∈ withIdx t.indexes,
    indexesMatch p.2 q.2 = true → p.1 = q.1) ∧
  (∀ t ∈ schema.tables, ∀ i ∈ t.indexes, flavour.indexShouldBeRenamed i i = false) ∧
  (∀ p ∈ withIdx schema.enums, ∀ q ∈ withIdx schema.enums,
    p.2.name = q.2.name → p.1 = q.1) ∧
  flavour.shouldRedefineTable [] = false

theorem prod_eq_of_parts {α β : Type} {p q : α × β} (h1 : p.1 = q.1) (h2 : p.2 = q.2) :
    p = q := by
  obtain ⟨a, b⟩ := p
  obtain ⟨c, d⟩ := q
  cases h1
  cases h2
  rfl

theorem tablePairs_self (schema : SqlSchema) (flavour : SqlFlavour)
    (h1 : ∀ t ∈ schema.tables, flavour.tableNamesMatch t.name t.name = true)
    (h2 : ∀ p ∈ withIdx schema.tables, ∀ q ∈ withIdx schema.tables,
      flavour.tableNamesMatch p.2.name q.2.name = true → p.1 = q.1) :
    tablePairs { previous := schema, next := schema } flavour =
      (filteredTables flavour schema).map (fun t => { previous := t, next := t }) := by
  unfold tablePairs
  apply filterMap_congr_some
  intro pt hpt
  have hfind : (nextTables { previous := schema, next := schema } flavour).find?
      (fun nt => flavour.tableNamesMatch pt.2.name nt.2.name) = some pt := by
    apply find?_eq_of_unique _ _ pt
    · exact hpt
    · exact h1 pt.2 (mem_filteredTables_table hpt)
    · intro q hq hpq
      have hqw : q ∈ withIdx schema.tables := List.mem_of_mem_filter hq
      have hptw : pt ∈ withIdx schema.tables := List.mem_of_mem_filter hpt
      have hqi : pt.1 = q.1 := h2 pt hptw q hqw hpq
      obtain ⟨i1, t1⟩ := pt
      obtain ⟨i2, t2⟩ := q
      cases hqi
      rw [withIdx_fst_inj hqw hptw]
  rw [hfind]
  rfl

theorem createdTables_self (schema : SqlSchema) (flavour : SqlFlavour)
    (h1 : ∀ t ∈ schema.tables, flavour.tableNamesMatch t.name t.name = true) :
    createdTables { previous := schema, next := schema } flavour = [] := by
  unfold createdTables
  rw [List.filter_eq_nil_iff]
  intro nt hnt
  have hany : (previousTables { previous := schema, next := schema } flavour).any
      (fun pt => flavour.tableNamesMatch pt.2.name nt.2.name) = true :=
    List.any_eq_true.mpr ⟨nt, hnt, h1 nt.2 (mem_filteredTables_table hnt)⟩
  simp [hany]

theorem droppedTables_self (schema : SqlSchema) (flavour : SqlFlavour)
    (h1 : ∀ t ∈ schema.tables, flavour.tableNamesMatch t.name t.name = true) :
    droppedTables { previous := schema, next := schema } flavour = [] := by
  unfold droppedTables
  rw [List.filter_eq_nil_iff]
  intro pt hpt
  have hany : (nextTables { previous := schema, next := schema } flavour).any
      (fun nt => flavour.tableNamesMatch pt.2.name nt.2.name) = true :=
    List.any_eq_true.mpr ⟨pt, hpt, h1 pt.2 (mem_filteredTables_table hpt)⟩
  simp [hany]

theorem columnPairs_self (flavour : SqlFlavour) (pt : Nat × Table)
    (h4 : ∀ c ∈ pt.2.columns, flavour.columnNamesMatch c.name c.name = true)
    (h5 : ∀ p ∈ withIdx pt.2.columns, ∀ q ∈ withIdx pt.2.columns,
      flavour.columnNamesMatch p.2.name q.2.name = true → p.1 = q.1) :
    columnPairs flavour { previous := pt, next := pt } =
      (withIdx pt.2.columns).map (fun c => { previous := c, next := c }) := by
  unfold columnPairs
  apply filterMap_congr_some
  intro pc hpc
  have hfind : (withIdx pt.2.columns).find?
      (fun nc => flavour.columnNamesMatch pc.2.name nc.2.name) = some pc := by
    apply find?_eq_of_unique _ _ pc
    · exact hpc
    · exact h4 pc.2 (mem_withIdx_snd hpc)
    · intro q hq hpq
      have hqi : pc.1 = q.1 := h5 pc hpc q hq hpq
      obtain ⟨i1, c1⟩ := pc
      obtain ⟨i2, c2⟩ := q
      cases hqi
      rw [withIdx_fst_inj hq hpc]
  rw [hfind]
  rfl

theorem addedColumns_self (flavour : SqlFlavour) (pt : Nat × Table)
    (h4 : ∀ c ∈ pt.2.columns, flavour.columnNamesMatch c.name c.name = true) :
    addedColumns flavour { previous := pt, next := pt } = [] := by
  unfold addedColumns
  rw [List.filter_eq_nil_iff]
  intro nc hnc
  have hany : (withIdx pt.2.columns).any
      (fun pc => flavour.columnNamesMatch pc.2.name nc.2.name) = true :=
    List.any_eq_true.mpr ⟨nc, hnc, h4 nc.2 (mem_withIdx_snd hnc)⟩
  simp [hany]

theorem droppedColumns_self (flavour : SqlFlavour) (pt : Nat × Table)
    (h4 : ∀ c ∈ pt.2.columns, flavour.columnNamesMatch c.name c.name = true) :
    droppedColumns flavour { previous := pt, next := pt } = [] := by
  unfold droppedColumns
  rw [List.filter_eq_nil_iff]
  intro pc hpc
  have hany : (withIdx pt.2.columns).any
      (fun nc => flavour.columnNamesMatch pc.2.name nc.2.name) = true :=
    List.any_eq_true.mpr ⟨pc, hpc, h4 pc.2 (mem_withIdx_snd hpc)⟩
  simp [hany]

theorem alterColumns_self (flavour : SqlFlavour) (pt : Nat × Table)
    (h4 : ∀ c ∈ pt.2.columns, flavour.columnNamesMatch c.name c.name = true)
    (h5 : ∀ p ∈ withIdx pt.2.columns, ∀ q ∈ withIdx pt.2.columns,
      flavour.columnNamesMatch p.2.name q.2.name = true → p.1 = q.1) :
    alterColumns flavour { previous := pt, next := pt } = [] := by
  unfold alterColumns
  rw [columnPairs_self flavour pt h4 h5, List.filterMap_map]
  apply filterMap_eq_nil_of_forall
  intro c _
  obtain ⟨i, col⟩ := c
  exact alterColumnChange_self flavour i i col

theorem indexPairs_self (pt : Nat × Table)
    (h6 : ∀ p ∈ withIdx pt.2.indexes, ∀ q ∈ withIdx pt.2.indexes,
      indexesMatch p.2 q.2 = true → p.1 = q.1) :
    indexPairs { previous := pt, next := pt } =
      (withIdx pt.2.indexes).map (fun ix => { previous := ix, next := ix }) := by
  unfold indexPairs
  apply filterMap_congr_some
  intro pidx hpidx
  have hfind : (withIdx pt.2.indexes).find?
      (fun nidx => indexesMatch pidx.2 nidx.2) = some pidx := by
    apply find?_eq_of_unique _ _ pidx
    · exact hpidx
    · exact indexesMatch_self pidx.2
    · intro q hq hpq
      have hqi : pidx.1 = q.1 := h6 pidx hpidx q hq hpq
      obtain ⟨i1, x1⟩ := pidx
      obtain ⟨i2, x2⟩ := q
      cases hqi
      rw [withIdx_fst_inj hq hpidx]
  rw [hfind]
  rfl

theorem createdIndexes_self (pt : Nat × Table) :
    createdIndexes { previous := pt, next := pt } = [] := by
  unfold createdIndexes
  rw [List.filter_eq_nil_iff]
  intro nidx hnidx
  have hany : (withIdx pt.2.indexes).any (fun pidx => indexesMatch pidx.2 nidx.2) = true :=
    List.any_eq_true.mpr ⟨nidx, hnidx, indexesMatch_self nidx.2⟩
  simp [hany]

theorem droppedIndexes_self (pt : Nat × Table) :
    droppedIndexes { previous := pt, next := pt } = [] := by
  unfold droppedIndexes
  rw [List.filter_eq_nil_iff]
  intro pidx hpidx
  have hany : (withIdx pt.2.indexes).any (fun nidx => indexesMatch pidx.2 nidx.2) = true :=
    List.any_eq_true.mpr ⟨pidx, hpidx, indexesMatch_self pidx.2⟩
  simp [hany]

theorem createdForeignKeys_self (flavour : SqlFlavour) (pt : Nat × Table)
    (h3 : ∀ fk ∈ pt.2.foreignKeys,
      flavour.tableNamesMatch fk.referencedTable fk.referencedTable = true) :
    createdForeignKeys flavour { previous := pt, next := pt } = [] := by
  unfold createdForeignKeys
  rw [List.filter_eq_nil_iff]
  intro nfk hnfk
  have hany : (withIdx pt.2.foreignKeys).any (fun pfk =>
      foreignKeysMatch flavour pt.2 pt.2 pfk.2 nfk.2) = true :=
    List.any_eq_true.mpr ⟨nfk, hnfk,
      foreignKeysMatch_self flavour pt.2 nfk.2 (h3 nfk.2 (mem_withIdx_snd hnfk))⟩
  simp [hany]

theorem droppedForeignKeys_self (flavour : SqlFlavour) (pt : Nat × Table)
    (h3 : ∀ fk ∈ pt.2.foreignKeys,
      flavour.tableNamesMatch fk.referencedTable fk.referencedTable = true) :
    droppedForeignKeys flavour { previous := pt, next := pt } = [] := by
  unfold droppedForeignKeys
  rw [List.filter_eq_nil_iff]
  intro pfk hpfk
  have hany : (withIdx pt.2.foreignKeys).any (fun nfk =>
      foreignKeysMatch flavour pt.2 pt.2 pfk.2 nfk.2) = true :=
    List.any_eq_true.mpr ⟨pfk, hpfk,
      foreignKeysMatch_self flavour pt.2 pfk.2 (h3 pfk.2 (mem_withIdx_snd hpfk))⟩
  simp [hany]

theorem createdPrimaryKey_self (pt : Nat × Table) :
    createdPrimaryKey { previous := pt, next := pt } = none := by
  unfold createdPrimaryKey
  cases pt.2.primaryKey <;> simp

theorem droppedPrimaryKey_self (pt : Nat × Table) :
    droppedPrimaryKey { previous := pt, next := pt } = none := by
  unfold droppedPrimaryKey
  cases pt.2.primaryKey <;> simp

theorem dropPrimaryKeyChange_self (flavour : SqlFlavour) (pt : Nat × Table)
    (h4 : ∀ c ∈ pt.2.columns, flavour.columnNamesMatch c.name c.name = true)
    (h5 : ∀ p ∈ withIdx pt.2.columns, ∀ q ∈ withIdx pt.2.columns,
      flavour.columnNamesMatch p.2.name q.2.name = true → p.1 = q.1) :
    dropPrimaryKeyChange flavour { previous := pt, next := pt } = none := by
  have hpsl : fromPslDropPrimaryKey { previous := pt, next := pt } = none := by
    unfold fromPslDropPrimaryKey
    rw [droppedPrimaryKey_self]
    rfl
  have hforced : pkRecreateForced flavour { previous := pt, next := pt } = false := by
    unfold pkRecreateForced
    rw [alterColumns_self flavour pt h4 h5]
    rfl
  unfold dropPrimaryKeyChange
  rw [hpsl]
  split
  · rw [hforced]
    rfl
  · rfl

theorem addPrimaryKeyChange_self (flavour : SqlFlavour) (pt : Nat × Table)
    (h4 : ∀ c ∈ pt.2.columns, flavour.columnNamesMatch c.name c.name = true)
    (h5 : ∀ p ∈ withIdx pt.2.columns, ∀ q ∈ withIdx pt.2.columns,
      flavour.columnNamesMatch p.2.name q.2.name = true → p.1 = q.1) :
    addPrimaryKeyChange flavour { previous := pt, next := pt } = none := by
  have hpsl : fromPslAddPrimaryKey { previous := pt, next := pt } = none := by
    unfold fromPslAddPrimaryKey
    rw [createdPrimaryKey_self]
    rfl
  have hforced : pkRecreateForced flavour { previous := pt, next := pt } = false := by
    unfold pkRecreateForced
    rw [alterColumns_self flavour pt h4 h5]
    rfl
  unfold addPrimaryKeyChange
  rw [hpsl]
  split
  · rw [hforced]
    rfl
  · rfl

theorem alterTableChanges_self (flavour : SqlFlavour) (pt : Nat × Table)
    (h4 : ∀ c ∈ pt.2.columns, flavour.columnNamesMatch c.name c.name = true)
    (h5 : ∀ p ∈ withIdx pt.2.columns, ∀ q ∈ withIdx pt.2.columns,
      flavour.columnNamesMatch p.2.name q.2.name = true → p.1 = q.1) :
    alterTableChanges flavour { previous := pt, next := pt } = [] := by
  unfold alterTableChanges dropColumnChanges addColumnChanges
  rw [dropPrimaryKeyChange_self flavour pt h4 h5, addPrimaryKeyChange_self flavour pt h4 h5,
    alterColumns_self flavour pt h4 h5, droppedColumns_self flavour pt h4,
    addedColumns_self flavour pt h4]
  rfl

theorem enumPairs_self (schema : SqlSchema)
    (h8 : ∀ p ∈ withIdx schema.enums, ∀ q ∈ withIdx schema.enums,
      p.2.name = q.2.name → p.1 = q.1) :
    enumPairs { previous := schema, next := schema } =
      (withIdx schema.enums).map (fun e => { previous := e, next := e }) := by
  unfold enumPairs
  apply filterMap_congr_some
  intro pe hpe
  have hfind : (nextEnums { previous := schema, next := schema }).find?
      (fun ne0 => enumsMatch pe.2 ne0.2) = some pe := by
    apply find?_eq_of_unique _ _ pe
    · exact hpe
    · exact enumsMatch_self pe.2
    · intro q hq hpq
      have hname : pe.2.name = q.2.name := by simpa [enumsMatch] using hpq
      have hqi : pe.1 = q.1 := h8 pe hpe q hq hname
      obtain ⟨i1, e1⟩ := pe
      obtain ⟨i2, e2⟩ := q
      cases hqi
      rw [withIdx_fst_inj hq hpe]
  rw [hfind]
  rfl

theorem createdEnums_self (schema : SqlSchema) :
    createdEnums { previous := schema, next := schema } = [] := by
  unfold createdEnums
  rw [List.filter_eq_nil_iff]
  intro ne0 hne
  have hany : (previousEnums { previous := schema, next := schema }).any
      (fun pe => enumsMatch pe.2 ne0.2) = true :=
    List.any_eq_true.mpr ⟨ne0, hne, enumsMatch_self ne0.2⟩
  simp [hany]

theorem droppedEnums_self (schema : SqlSchema) :
    droppedEnums { previous := schema, next := schema } = [] := by
  unfold droppedEnums
  rw [List.filter_eq_nil_iff]
  intro pe hpe
  have hany : (nextEnums { previous := schema, next := schema }).any
      (fun ne0 => enumsMatch pe.2 ne0.2) = true :=
    List.any_eq_true.mpr ⟨pe, hpe, enumsMatch_self pe.2⟩
  simp [hany]

theorem alterEnumsBase_self (schema : SqlSchema) (flavour : SqlFlavour)
    (h8 : ∀ p ∈ withIdx schema.enums, ∀ q ∈ withIdx schema.enums,
      p.2.name = q.2.name → p.1 = q.1) :
    alterEnumsBase { previous := schema, next := schema } flavour = [] := by
  unfold alterEnumsBase
  cases hnat : flavour.hasNativeEnums
  · simp
  · rw [if_pos rfl, enumPairs_self schema h8, List.filterMap_map]
    apply filterMap_eq_nil_of_forall
    intro e _
    simp

/-- **C7 (amended).** Under the `selfDiffSafe` side conditions — reflexive
flavour name equivalence on the snapshot, no two distinct entities
identified by it, no rename required for an identical index pair, and no
redefinition for an empty change list — diffing a snapshot against an
identical copy of itself produces the empty step list. -/
theorem self_diff_empty (schema : SqlSchema) (flavour : SqlFlavour)
    (hsafe : selfDiffSafe schema flavour) :
    calculateSteps { previous := schema, next := schema } flavour = [] := by
  obtain ⟨h1, h2, h3, h4, h5, h6, h7, h8, h9⟩ := hsafe
  have hct := createdTables_self schema flavour h1
  have hdt := droppedTables_self schema flavour h1
  have htp := tablePairs_self schema flavour h1 h2
  have hchanges : ∀ pt ∈ filteredTables flavour schema,
      alterTableChanges flavour { previous := pt, next := pt } = [] := by
    intro pt hpt
    have hmem := mem_filteredTables_table hpt
    exact alterTableChanges_self flavour pt (h4 pt.2 hmem) (h5 pt.2 hmem)
  have hatl : alterTables { previous := schema, next := schema } flavour = [] := by
    unfold alterTables
    rw [htp, List.filterMap_map]
    apply filterMap_eq_nil_of_forall
    intro pt hpt
    simp [hchanges pt hpt]
  have htr : tablesToRedefine { previous := schema, next := schema } flavour = [] := by
    unfold tablesToRedefine
    rw [htp, List.filter_eq_nil_iff]
    intro x hx
    rcases List.mem_map.mp hx with ⟨pt, hpt, rfl⟩
    simp [hchanges pt hpt, h9]
  have hrtl : redefineTablesList { previous := schema, next := schema } flavour = [] := by
    unfold redefineTablesList
    rw [htr]
    rfl
  have hrts : redefineTablesSteps { previous := schema, next := schema } flavour = [] := by
    unfold redefineTablesSteps
    rw [hrtl]
    rfl
  have hpde : pairDropIndexEntries { previous := schema, next := schema } flavour = [] := by
    unfold pairDropIndexEntries
    rw [htp]
    apply flatMap_eq_nil_of_forall
    intro x hx
    rcases List.mem_map.mp hx with ⟨pt, hpt, rfl⟩
    rw [droppedIndexes_self]
    rfl
  have hdde : droppedTableDropIndexEntries { previous := schema, next := schema }
      flavour = [] := by
    unfold droppedTableDropIndexEntries
    rw [htr]
    simp
  have hdil : dropIndexesList { previous := schema, next := schema } flavour = [] := by
    unfold dropIndexesList
    rw [hpde, hdde]
    rfl
  have hcict : createIndexesFromCreatedTables { previous := schema, next := schema }
      flavour = [] := by
    unfold createIndexesFromCreatedTables
    rw [hct]
    simp
  have hcil : createIndexesList { previous := schema, next := schema } flavour = [] := by
    unfold createIndexesList
    rw [hcict, htp, List.nil_append]
    apply flatMap_eq_nil_of_forall
    intro x hx
    rcases List.mem_map.mp hx with ⟨pt, hpt, rfl⟩
    have hmem := mem_filteredTables_table hpt
    have hcis : createdIndexSteps
        ({ previous := pt, next := pt } : Pair (Nat × Table)) = [] := by
      unfold createdIndexSteps
      rw [createdIndexes_self]
      rfl
    have hncc : notCastableNextColumns flavour
        ({ previous := pt, next := pt } : Pair (Nat × Table)) = [] := by
      unfold notCastableNextColumns
      rw [columnPairs_self flavour pt (h4 pt.2 hmem) (h5 pt.2 hmem), List.filterMap_map]
      apply filterMap_eq_nil_of_forall
      intro c _
      simp [columnAllChanges_self]
    have hris : recreatedIndexSteps flavour
        ({ previous := pt, next := pt } : Pair (Nat × Table)) = [] := by
      unfold recreatedIndexSteps
      cases hcap : flavour.indexesShouldBeRecreatedAfterColumnDrop
      · simp
      · rw [if_pos rfl]
        apply filterMap_eq_nil_of_forall
        intro ip _
        rw [hncc]
        simp
    rw [hcis, hris]
    rfl
  have hafkl : addForeignKeysList { previous := schema, next := schema } flavour = [] := by
    unfold addForeignKeysList
    rw [hct, htp]
    have hB : (((filteredTables flavour schema).map
        (fun t => ({ previous := t, next := t } : Pair (Nat × Table)))).flatMap
          (fun tp => (createdForeignKeys flavour tp).map (fun fk =>
            ({ tableIndex := tp.next.1, foreignKeyIndex := fk.1 } : AddForeignKeyStep)))) =
        [] := by
      apply flatMap_eq_nil_of_forall
      intro x hx
      rcases List.mem_map.mp hx with ⟨pt, hpt, rfl⟩
      rw [createdForeignKeys_self flavour pt (h3 pt.2 (mem_filteredTables_table hpt))]
      rfl
    rw [hB]
    simp
  have hail : alterIndexesList { previous := schema, next := schema } flavour = [] := by
    unfold alterIndexesList
    rw [htp]
    apply flatMap_eq_nil_of_forall
    intro x hx
    rcases List.mem_map.mp hx with ⟨pt, hpt, rfl⟩
    have hmem := mem_filteredTables_table hpt
    rw [indexPairs_self pt (h6 pt.2 hmem), List.filterMap_map]
    apply filterMap_eq_nil_of_forall
    intro iw hiw
    simp [h7 pt.2 hmem iw.2 (mem_withIdx_snd hiw)]
  have hais : alterIndexSteps { previous := schema, next := schema } flavour = [] := by
    unfold alterIndexSteps
    cases hcan : flavour.canAlterIndex <;> simp [hail]
  have hrise : redefineIndexSteps { previous := schema, next := schema } flavour = [] := by
    unfold redefineIndexSteps
    cases hcan : flavour.canAlterIndex <;> simp [hail]
  have hdtl : dropTablesList { previous := schema, next := schema } flavour = [] := by
    unfold dropTablesList
    rw [hdt]
    rfl
  have hdtfk : droppedTablesForeignKeys { previous := schema, next := schema }
      flavour = [] := by
    unfold droppedTablesForeignKeys
    rw [hdt]
    rfl
  have hpfk : pairDroppedForeignKeySteps { previous := schema, next := schema }
      flavour = [] := by
    unfold pairDroppedForeignKeySteps
    rw [htp]
    apply flatMap_eq_nil_of_forall
    intro x hx
    rcases List.mem_map.mp hx with ⟨pt, hpt, rfl⟩
    rw [droppedForeignKeys_self flavour pt (h3 pt.2 (mem_filteredTables_table hpt))]
    rfl
  have hdfkl : dropForeignKeysList { previous := schema, next := schema } flavour = [] := by
    unfold dropForeignKeysList
    rw [hdtfk, hpfk]
    rfl
  have hctl : createTablesList { previous := schema, next := schema } flavour = [] := by
    unfold createTablesList
    rw [hct]
    rfl
  have hcel : createEnumsList { previous := schema, next := schema } flavour = [] := by
    unfold createEnumsList
    rw [createdEnums_self]
    simp
  have hdel : dropEnumsList { previous := schema, next := schema } flavour = [] := by
    unfold dropEnumsList
    rw [droppedEnums_self]
    simp
  have hael : alterEnumsList { previous := schema, next := schema } flavour = [] := by
    unfold alterEnumsList
    rw [alterEnumsBase_self schema flavour h8]
    rfl
  unfold calculateSteps
  rw [hcel, hael, hdfkl, hdil, hatl, hdtl, hdel, hctl, hrts, hcil, hafkl, hais, hrise]
  rfl

/-- Flavour for the C7 counterexample: the table-name equivalence identifies
the two names `A` and `a` (a case-insensitivity-style equivalence), and is
otherwise exact equality. -/
def c7Flavour : SqlFlavour :=
  { c2Flavour with
    tableNamesMatch := fun a b =>
      a == b || (a == "A" && b == "a") || (a == "a" && b == "A")
    shouldRedefineTable := fun _ => false
    shouldDropIndexesFromDroppedTables := false }

/-- C7 counterexample snapshot: two tables whose names are identified by the
flavour's equivalence but whose contents differ. -/
def c7Schema : SqlSchema :=
  { tables :=
      [ { name := "A", columns := [], indexes := [], foreignKeys := [],
          primaryKey := none }
      , { name := "a"
          columns :=
            [ { name := "x"
                family := ColumnTypeFamily.int
                arity := ColumnArity.required
                nativeType := none
                defaultValue := none } ]
          indexes := [], foreignKeys := [], primaryKey := none } ]
    enums := [] }

/-- **C7 (counterexample).** Diffing `c7Schema` against an identical copy of
itself under `c7Flavour` does *not* yield an empty step list: table `a`
pairs with the equivalent-named table `A`, whose contents differ, so an
`AlterTable` step is emitted. -/
theorem self_diff_empty_counterexample :
    calculateSteps { previous := c7Schema, next := c7Schema } c7Flavour ≠ [] := by
  decide

/-- C7 witness snapshot: a snapshot with a table (column, unique index,
named self-referencing foreign key, primary key) and an enum. -/
def w7Schema : SqlSchema :=
  { tables :=
      [ { name := "t"
          columns :=
            [ { name := "id"
                family := ColumnTypeFamily.int
                arity := ColumnArity.required
                nativeType := none
                defaultValue := none } ]
          indexes := [{ name := some "i", columns := ["id"], unique := true }]
          foreignKeys :=
            [ { constraintName := some "fk"
                constrainedColumns := ["id"]
                referencedColumns := ["id"]
                referencedTable := "t" } ]
          primaryKey := some [0] } ]
    enums := [{ name := "e", variants := ["v"] }] }

theorem self_diff_empty_witness :
    calculateSteps { previous := w7Schema, next := w7Schema } c4Flavour = [] :=
  self_diff_empty w7Schema c4Flavour (by unfold selfDiffSafe; decide)

/-- Spec wording of the type-family condition of `foreign_keys_match`: the
families match, with the `Uuid` and `String` families interchangeable. -/
def familiesMatchSpec (x y : ColumnTypeFamily) : Bool :=
  match x, y with
  | ColumnTypeFamily.uuid, ColumnTypeFamily.string => true
  | ColumnTypeFamily.string, ColumnTypeFamily.uuid => true
  | x, y => x == y

/-- **C3.** `foreignKeysMatch` returns true iff (a) the referenced tables
match under the flavour's table-name equivalence, (b) the two foreign keys
reference the same number of columns and constrain the same number of
columns, (c) at every constrained-column position the two columns have equal
names and matching type families with `Uuid`/`String` interchangeable, and
(d) the referenced column names are identical at every position. -/
theorem foreign_keys_match_iff (flavour : SqlFlavour) (prevTable nextTable : Table)
    (pfk nfk : ForeignKey) :
    foreignKeysMatch flavour prevTable nextTable pfk nfk = true ↔
      (flavour.tableNamesMatch pfk.referencedTable nfk.referencedTable = true ∧
       pfk.referencedColumns.length = nfk.referencedColumns.length ∧
       (constrainedColumnWalkers prevTable pfk).length =
         (constrainedColumnWalkers nextTable nfk).length ∧
       (∀ cc ∈ (constrainedColumnWalkers prevTable pfk).zip
           (constrainedColumnWalkers nextTable nfk),
         cc.1.name = cc.2.name ∧ familiesMatchSpec cc.1.family cc.2.family = true) ∧
       (∀ rc ∈ pfk.referencedColumns.zip nfk.referencedColumns, rc.1 = rc.2)) := by
  unfold foreignKeysMatch familiesMatchSpec
  simp only [Bool.and_eq_true, List.all_eq_true, beq_iff_eq]
  tauto

/-- Flavour for the C8 witness: no in-place index renaming. -/
def c8Flavour : SqlFlavour :=
  { c2Flavour with canAlterIndex := false }

theorem alter_index_redefine_index_exclusive_witness :
    (calculateSteps c2Schemas c8Flavour).all (fun s => !(isAlterIndexStep s)) = true :=
  (alter_index_redefine_index_exclusive c2Schemas c8Flavour).2 rfl

end SqlDiff
